import Mathlib

/-!
# Verification of the json-api resource-type registry and content negotiation

Shallow embedding of `src/unnamed/part_002` (ResourceTypeRegistry) and the
content-negotiation behaviour exercised by `src/unnamed/part_000`.

JavaScript / Immutable.js values are embedded as the inductive `JVal`:
plain objects and Immutable Maps become `JVal.obj` (an association list,
preserving key insertion order), arrays and Immutable Lists become
`JVal.arr`, and scalars / function references become leaves.  JS
`undefined` is the explicit leaf `JVal.undef`.
-/

set_option autoImplicit false

namespace JsonApi

/-- Embedded JS / Immutable value. `fn n` is an opaque function reference
identified by a tag; `undef` is JS `undefined`. -/
inductive JVal where
  | s : String → JVal
  | num : Int → JVal
  | tf : Bool → JVal
  | fn : Nat → JVal
  | undef : JVal
  | arr : List JVal → JVal
  | obj : List (String × JVal) → JVal
deriving Repr

mutual

/-- Structural equality test on embedded values. -/
def JVal.beq : JVal → JVal → Bool
  | .s a, .s c => a == c
  | .num a, .num c => a == c
  | .tf a, .tf c => a == c
  | .fn a, .fn c => a == c
  | .undef, .undef => true
  | .arr a, .arr c => beqList a c
  | .obj a, .obj c => beqEntries a c
  | _, _ => false

def beqList : List JVal → List JVal → Bool
  | [], [] => true
  | x :: xs, y :: ys => JVal.beq x y && beqList xs ys
  | _, _ => false

def beqEntries : List (String × JVal) → List (String × JVal) → Bool
  | [], [] => true
  | (k, x) :: xs, (l, y) :: ys => k == l && JVal.beq x y && beqEntries xs ys
  | _, _ => false

end

mutual

/-- Computable structural size, used as fuel for the deep merge. -/
def JVal.size : JVal → Nat
  | .arr l => sizeList l + 1
  | .obj l => sizeEntries l + 1
  | _ => 1

def sizeList : List JVal → Nat
  | [] => 0
  | x :: xs => JVal.size x + sizeList xs + 1

def sizeEntries : List (String × JVal) → Nat
  | [] => 0
  | (_, x) :: xs => JVal.size x + sizeEntries xs + 1

end

instance {ε α : Type _} [DecidableEq ε] [DecidableEq α] : DecidableEq (Except ε α) :=
  fun a b =>
    match a, b with
    | .error x, .error y =>
        if h : x = y then .isTrue (by rw [h])
        else .isFalse (fun hc => h (Except.error.inj hc))
    | .ok x, .ok y =>
        if h : x = y then .isTrue (by rw [h])
        else .isFalse (fun hc => h (Except.ok.inj hc))
    | .error _, .ok _ => .isFalse (fun hc => Except.noConfusion hc)
    | .ok _, .error _ => .isFalse (fun hc => Except.noConfusion hc)

namespace JVal

/-- First-match association-list lookup (JS object property access order). -/
def lookupKey : List (String × JVal) → String → Option JVal
  | [], _ => none
  | (k, v) :: rest, key => if k = key then some v else lookupKey rest key

/-- Immutable `Map.set` on the entry list: replaces the first entry
with the given key in place, otherwise appends the new entry. -/
def setKey : List (String × JVal) → String → JVal → List (String × JVal)
  | [], k, v => [(k, v)]
  | (k', v') :: rest, k, v =>
      if k' = k then (k, v) :: rest else (k', v') :: setKey rest k v

/-- Property access `it.get(k)`: `undef` when the key is absent or the
value is not an object. -/
def get (v : JVal) (k : String) : JVal :=
  match v with
  | obj l => (lookupKey l k).getD undef
  | _ => undef

/-- Functional update `it.set(k, x)` on objects, identity elsewhere. -/
def set (v : JVal) (k : String) (x : JVal) : JVal :=
  match v with
  | obj l => obj (setKey l k x)
  | _ => v

/-- Is this a mapping-like value (an Immutable Map / plain object)? -/
def isObj : JVal → Bool
  | obj _ => true
  | _ => false

/-- The keys of an entry list. -/
def keys (l : List (String × JVal)) : List String := l.map Prod.fst

end JVal

open JVal

/-- Fold the child entry list `b` into the parent entry list `a`, combining
values at a shared key with `f`, updating existing keys in place and
appending new keys (Immutable `Map.merge` entry ordering). -/
def mergeListWith (f : JVal → JVal → JVal) :
    List (String × JVal) → List (String × JVal) → List (String × JVal)
  | a, [] => a
  | a, (k, w) :: rest =>
      mergeListWith f
        (setKey a k (match lookupKey a k with
          | some v => f v w
          | none => w)) rest

/-- Fuelled deep merge; the fuel bounds the nesting depth of the second
(child) argument, so `sizeOf` of the child is always enough fuel. -/
def mergeDeepF : Nat → JVal → JVal → JVal
  | 0, _, new => new
  | fuel + 1, JVal.obj a, JVal.obj b => JVal.obj (mergeListWith (mergeDeepF fuel) a b)
  | _ + 1, _, new => new

/-- Modelled from the spec: `mergeDeep` of the immutable library (v3.8.2),
a dependency whose code is not under `src/`.  Per spec §4.2: "for two
values at the same key, if both are mapping-like, merge recursively
key-by-key (child key wins on conflict, keys from both sides otherwise
preserved); if either is scalar/list/function, child value replaces
parent value entirely (no list-splicing)". -/
def mergeDeep (x y : JVal) : JVal := mergeDeepF y.size x y

/-- Entry lists without duplicate keys (always true of `Immutable.fromJS`
output, since JS object keys are unique). -/
def KeysNodup (l : List (String × JVal)) : Prop := (keys l).Nodup

instance (l : List (String × JVal)) : Decidable (KeysNodup l) := by
  unfold KeysNodup; infer_instance

/-! ## Topological resolver

Modelled from the spec: `pseudoTopSort` is imported by the registry from
`src/util/misc`, whose code is not under `src/`.  Per spec §4.1 the
resolver must order nodes so every node appears after its parent, fail
fast with an actionable error when a non-root node's declared parentType
is absent from the node set, defend against cycles by reporting an error
rather than looping, and be deterministic with ties among siblings
preserving input order.  Nodes are given as `(name, declared parent)`
pairs in input iteration order. -/
/-- A node is ready when it has no parent or its parent is already
resolved. -/
def ready (done : List String) : Option String → Bool
  | none => true
  | some q => decide (q ∈ done)

/-- Find the first node in `pending` that is ready (no parent, or parent
already resolved); return it together with the remaining pending list,
input order preserved. -/
def findReady (done : List String) :
    List (String × Option String) → Option (String × List (String × Option String))
  | [] => none
  | (n, p) :: rest =>
      if ready done p then
        some (n, rest)
      else
        (findReady done rest).map (fun r => (r.1, (n, p) :: r.2))

/-- Resolution loop: repeatedly move the first ready node to the resolved
list; a step with pending nodes but none ready means a node would be
revisited before its parent is resolved, i.e. a cycle. -/
def sortLoop : Nat → List (String × Option String) → List String → Except String (List String)
  | _, [], done => Except.ok done
  | 0, _ :: _, _ => Except.error "cyclic parentType chain"
  | fuel + 1, e :: tl, done =>
      match findReady done (e :: tl) with
      | some (n, rest) => sortLoop fuel rest (done ++ [n])
      | none => Except.error "cyclic parentType chain"

/-- Modelled from the spec (§4.1): the topological resolver.  It first
checks that every declared parent is a registered node name (failing
fast otherwise) and then runs the resolution loop. -/
def pseudoTopSort (typeList : List (String × Option String)) : Except String (List String) :=
  if typeList.all
      (fun e => match e.2 with
        | none => true
        | some q => decide (q ∈ typeList.map Prod.fst)) then
    sortLoop typeList.length typeList []
  else
    Except.error "missing parentType"

/-! ## ResourceTypeRegistry (src/unnamed/part_002)

The registry stores, per type name, the fully merged Immutable
description.  `buildRegistry` is the constructor: it computes the
effective defaults, orders the types with the resolver, and registers
them in order.  The internal `this[typesKey]` store is embedded as an
association list in registration order. -/
/-- Global defaults for all resource descriptions (part_002 line 23). -/
def globalResourceDefaults : JVal :=
  JVal.obj [("behaviors", JVal.obj [("dasherizeOutput", JVal.obj [("enabled", JVal.tf true)])])]

/-- The declared `parentType` of a raw description, with the JS truthiness
check of part_002 lines 98 and 111 (an empty string is falsy). -/
def parentTypeOf (d : JVal) : Option String :=
  match d.get "parentType" with
  | JVal.s p => if p = "" then none else some p
  | _ => none

/-- The effective defaults: global defaults deep-merged with the supplied
description defaults (part_002 line 82). -/
def effectiveDefaults (descriptionDefaults : JVal) : JVal :=
  mergeDeep globalResourceDefaults descriptionDefaults

/-- The merged description computed for one type at registration time:
the ternary of part_002 lines 118-129, with `reg` the store at that
moment.  With a parentType, merge the parent's already-merged
description with this type's raw description and then overwrite
`labelMappers` with just the ones directly from this description;
without one, merge the effective defaults with the raw description.
(The parent lookup's default is unreachable: the resolver guarantees the
parent was registered first.) -/
def mergedDescription (effDefaults : JVal) (reg : List (String × JVal)) (raw : JVal) : JVal :=
  match parentTypeOf raw with
  | some p =>
      (mergeDeep ((lookupKey reg p).getD (JVal.obj [])) raw).set
        "labelMappers" (raw.get "labelMappers")
  | none => mergeDeep effDefaults raw

/-- One iteration of the registration loop (part_002 lines 110-130). -/
def registerOne (typeDescriptions : List (String × JVal)) (effDefaults : JVal)
    (reg : List (String × JVal)) (typeName : String) : List (String × JVal) :=
  match lookupKey typeDescriptions typeName with
  | none => reg
  | some raw => reg ++ [(typeName, mergedDescription effDefaults reg raw)]

/-- The ResourceTypeRegistry constructor (part_002 lines 80-131). -/
def buildRegistry (typeDescriptions : List (String × JVal)) (descriptionDefaults : JVal) :
    Except String (List (String × JVal)) :=
  (pseudoTopSort (typeDescriptions.map (fun e => (e.1, parentTypeOf e.2)))).map
    (fun order =>
      order.foldl (registerOne typeDescriptions (effectiveDefaults descriptionDefaults)) [])

/-! ## Registry accessors

`Maybe(x)` (from util/type-handling, the library's absent-value wrapper)
is embedded as `Option`: JS `undefined` at any step of the bind chain
propagates as `none`.  `toJS` does not change the value a getter denotes
(it produces a fresh plain copy; see the heap model below), so it is the
identity on the denoted value here.

The store `this[typesKey]` is a plain object literal (part_002 line 81),
so the property reads `typeName in this[typesKey]` (line 138) and
`this[typesKey][typeName]` (lines 134, 149, 201, 209) consult the JS
prototype chain: when `typeName` is not an own key but is a property of
`Object.prototype` (such as "toString"), the `in` test is true and the
read yields the inherited value.  Those inherited values — the
Object.prototype methods and, for `__proto__`, the Object.prototype
object itself — are host values with no `get` or `toJS` method, so the
accessors' bind chains throw a TypeError on them; the embedding models
each of them with the opaque `fn` constructor (nothing the accessors do
distinguishes them further than "not an Immutable collection") and
models a thrown TypeError as `Except.error`. -/
/-- The `unwrap` of a `Maybe` holding a possibly-undefined value. -/
def optOfVal : JVal → Option JVal
  | JVal.undef => none
  | v => some v

/-- The properties a plain object literal inherits from
`Object.prototype`, as found by the `in` operator and by property reads:
the standard methods plus the `__proto__` accessor.  None of their
values is an Immutable collection. -/
def objectProtoProps : List (String × JVal) :=
  [("constructor", JVal.fn 9001), ("hasOwnProperty", JVal.fn 9002),
   ("isPrototypeOf", JVal.fn 9003), ("propertyIsEnumerable", JVal.fn 9004),
   ("toLocaleString", JVal.fn 9005), ("toString", JVal.fn 9006),
   ("valueOf", JVal.fn 9007), ("__defineGetter__", JVal.fn 9008),
   ("__defineSetter__", JVal.fn 9009), ("__lookupGetter__", JVal.fn 9010),
   ("__lookupSetter__", JVal.fn 9011), ("__proto__", JVal.fn 9012)]

/-- JS property read `store[name]` on the plain object `this[typesKey]`:
the own key if present, else the `Object.prototype` chain, else
undefined. -/
def protoRead (store : List (String × JVal)) (name : String) : JVal :=
  match lookupKey store name with
  | some v => v
  | none => (lookupKey objectProtoProps name).getD JVal.undef

/-- Whether a value is an Immutable collection (`Immutable.Map` or
`Immutable.List`): exactly the values carrying the `get` and `toJS`
methods the accessor bind chains call. -/
def isColl : JVal → Bool
  | JVal.obj _ => true
  | JVal.arr _ => true
  | _ => false

/-- Method `hasType(typeName)` of the registry (part_002 line 137):
`typeName in this[typesKey]`, where `in` also finds the inherited
`Object.prototype` properties. -/
def hasType (reg : List (String × JVal)) (typeName : String) : Bool :=
  (lookupKey reg typeName).isSome || (lookupKey objectProtoProps typeName).isSome

/-- Method `typeNames()` of the registry (part_002 line 141):
`Object.keys` lists own keys only. -/
def typeNames (reg : List (String × JVal)) : List String := keys reg

/-- Method `type(typeName)` of the registry (part_002 line 133):
`Maybe(this[typesKey][typeName]).bind(it => it.toJS()).unwrap()`.  On an
inherited `Object.prototype` value, `it.toJS` is not a function and the
call throws a TypeError. -/
def typeAccessor (reg : List (String × JVal)) (typeName : String) :
    Except String (Option JVal) :=
  match optOfVal (protoRead reg typeName) with
  | none => Except.ok none
  | some it =>
      if isColl it then Except.ok (some it)
      else Except.error "TypeError: it.toJS is not a function"

/-- The generic auto-getter produced by `makeGetter` (part_002 lines
199-206): `Maybe(types[type]).bind(it => it.get(attr)).bind(it => it
instanceof Map or List ? it.toJS() : it).unwrap()`.  Note the
`autoGetterProps.forEach` on lines 195-197 overwrites the class body's
methods on the prototype, so this is the effective implementation of all
eight per-field getters (each reading exactly the property it is named
after).  On an inherited `Object.prototype` value, `it.get` is not a
function and the first bind throws a TypeError; the second bind is
guarded by the instanceof test and never throws. -/
def doGet (attrName : String) (reg : List (String × JVal)) (typeName : String) :
    Except String (Option JVal) :=
  match optOfVal (protoRead reg typeName) with
  | none => Except.ok none
  | some it =>
      if isColl it then Except.ok (optOfVal (it.get attrName))
      else Except.error "TypeError: it.get is not a function"

def dbAdapter : List (String × JVal) → String → Except String (Option JVal) :=
  doGet "dbAdapter"

def beforeSave : List (String × JVal) → String → Except String (Option JVal) :=
  doGet "beforeSave"

def beforeRender : List (String × JVal) → String → Except String (Option JVal) :=
  doGet "beforeRender"

def behaviors : List (String × JVal) → String → Except String (Option JVal) :=
  doGet "behaviors"

def labelMappers : List (String × JVal) → String → Except String (Option JVal) :=
  doGet "labelMappers"

def defaultIncludes : List (String × JVal) → String → Except String (Option JVal) :=
  doGet "defaultIncludes"

def info : List (String × JVal) → String → Except String (Option JVal) :=
  doGet "info"

def parentType : List (String × JVal) → String → Except String (Option JVal) :=
  doGet "parentType"

/-- Method `urlTemplates(type)` of the registry (part_002 lines
147-153): `Maybe(this[typesKey][type]).bind(it =>
it.get("urlTemplates")).bind(it => it.toJS()).unwrap()`.  Not in
`autoGetterProps`, so the class-body method stands; unlike the
auto-getters its second bind calls `toJS` unconditionally, so a
non-collection `urlTemplates` value would also throw. -/
def urlTemplates (reg : List (String × JVal)) (typeName : String) :
    Except String (Option JVal) :=
  match optOfVal (protoRead reg typeName) with
  | none => Except.ok none
  | some it =>
      if isColl it then
        match optOfVal (it.get "urlTemplates") with
        | none => Except.ok none
        | some u =>
            if isColl u then Except.ok (some u)
            else Except.error "TypeError: it.toJS is not a function"
      else Except.error "TypeError: it.get is not a function"

/-- C1 fixture: a parent declaring labelMappers and a child declaring
none. -/
def c1ds : List (String × JVal) :=
  [("P", JVal.obj [("labelMappers", JVal.obj [("byTitle", JVal.fn 0)])]),
   ("T", JVal.obj [("parentType", JVal.s "P")])]

def c1reg : List (String × JVal) := (buildRegistry c1ds (JVal.obj [])).toOption.getD []

/-- C6 fixture: a registry with one type that has an `info` field but no
`labelMappers`. -/
def c6ds : List (String × JVal) :=
  [("T", JVal.obj [("info", JVal.obj [("description", JVal.s "d")])])]

def c6reg : List (String × JVal) := (buildRegistry c6ds (JVal.obj [])).toOption.getD []

/-- C2 fixture: a parent declaring labelMappers and a child declaring
none, on which the claim's unqualified equality fails. -/
def c2ds : List (String × JVal) :=
  [("P", JVal.obj [("labelMappers", JVal.obj [("byTitle", JVal.fn 0)])]),
   ("T", JVal.obj [("parentType", JVal.s "P")])]

def c2vP : JVal :=
  JVal.obj [("behaviors", JVal.obj [("dasherizeOutput", JVal.obj [("enabled", JVal.tf true)])]),
    ("labelMappers", JVal.obj [("byTitle", JVal.fn 0)])]

def c2vT : JVal :=
  JVal.obj [("behaviors", JVal.obj [("dasherizeOutput", JVal.obj [("enabled", JVal.tf true)])]),
    ("labelMappers", JVal.undef), ("parentType", JVal.s "P")]

def c2amDT : JVal :=
  JVal.obj [("parentType", JVal.s "P"),
    ("info", JVal.obj [("description", JVal.s "child")])]

def c2amds : List (String × JVal) :=
  [("P", JVal.obj [("labelMappers", JVal.obj [("byTitle", JVal.fn 0)]),
      ("info", JVal.obj [("description", JVal.s "parent"), ("example", JVal.s "ex")])]),
   ("T", c2amDT)]

def c2amreg : List (String × JVal) := (buildRegistry c2amds (JVal.obj [])).toOption.getD []

/-- C7 fixture: a type whose declared parent is not registered. -/
def c7missds : List (String × JVal) := [("A", JVal.obj [("parentType", JVal.s "Z")])]

/-- C7 fixture: a two-cycle of parentType references. -/
def c7cycds : List (String × JVal) :=
  [("A", JVal.obj [("parentType", JVal.s "B")]),
   ("B", JVal.obj [("parentType", JVal.s "A")])]

/-- C8 fixture: a root with two children, the second child listed before
the first in input order. -/
def c8ds : List (String × JVal) :=
  [("R", JVal.obj []),
   ("B", JVal.obj [("parentType", JVal.s "R")]),
   ("A", JVal.obj [("parentType", JVal.s "R")])]

def c8rank : String → Nat := fun n => if n = "R" then 0 else 1

/-- C9 fixture: one root type with an empty description and nontrivial
supplied defaults. -/
def c9ds : List (String × JVal) := [("T", JVal.obj [])]

def c9dd : JVal := JVal.obj [("defaultIncludes", JVal.arr [JVal.s "related"])]

def c9reg : List (String × JVal) := (buildRegistry c9ds c9dd).toOption.getD []

/-! ## Content negotiation engine

Modelled from the spec: the negotiation engine is not under `src/`; only
its integration tests are (src/unnamed/part_000).  Per spec §4.3 it is a
pure, stateless decision function of (method, headers, body). -/
/-- The API's vendor JSON media type (spec glossary). -/
def JSONAPIMediaType : String := "application/vnd.api+json"

/-- A parsed Content-Type header: a media type plus parameters. -/
structure MediaType where
  mediaType : String
  params : List (String × String)
deriving Repr, DecidableEq

/-- One entry of a parsed Accept header: a media type with its quality
weight (×1000; 0 means "not acceptable"). -/
structure AcceptEntry where
  media : String
  q : Nat
deriving Repr, DecidableEq

/-- A wire-contract error object: at minimum a `title` (spec §6). -/
structure ErrorObject where
  title : String
deriving Repr, DecidableEq

structure HttpRequest where
  method : String
  contentType : Option MediaType
  accept : List AcceptEntry
  bodyValid : Bool
deriving Repr, DecidableEq

structure HttpResponse where
  status : Nat
  contentType : Option String
  errors : List ErrorObject
  hasData : Bool
deriving Repr, DecidableEq

/-- Modelled from the spec (§4.3): a Content-Type whose media type is
the vendor JSON type is invalid when it carries any parameter other than
`charset`. -/
def invalidContentType : Option MediaType → Bool
  | none => false
  | some ct =>
      ct.mediaType = JSONAPIMediaType && ct.params.any (fun pr => pr.1 ≠ "charset")

/-- Modelled from the spec (§4.3): the vendor type is acceptable when
the Accept header lists it with a nonzero quality. -/
def vendorAcceptable (accept : List AcceptEntry) : Bool :=
  accept.any (fun e => e.media = JSONAPIMediaType && e.q ≠ 0)

/-- Modelled from the spec (§4.3): prefer the vendor JSON media type
over generic alternatives whenever it is present and acceptable,
regardless of listed order or weights; otherwise fall back to the first
acceptable entry. -/
def negotiateResponseType (accept : List AcceptEntry) : Option String :=
  if vendorAcceptable accept then some JSONAPIMediaType
  else (accept.find? (fun e => e.q ≠ 0)).map (fun e => e.media)

/-- Modelled from the spec (§4.3, §6): the negotiation decision combined
with the success-status contract: 415 with an "Invalid Media Type
Parameter(s)" error for invalid Content-Type parameters; otherwise 201
with a `data` field for creation (POST) and 200 with a `data` field for
reads and updates, under the negotiated response media type. -/
def handleRequest (r : HttpRequest) : HttpResponse :=
  if invalidContentType r.contentType then
    { status := 415, contentType := some JSONAPIMediaType,
      errors := [{ title := "Invalid Media Type Parameter(s)" }], hasData := false }
  else if !r.bodyValid then
    { status := 400, contentType := some JSONAPIMediaType,
      errors := [{ title := "Invalid Request Body" }], hasData := false }
  else
    { status := if r.method = "POST" then 201 else 200,
      contentType := negotiateResponseType r.accept,
      errors := [], hasData := true }

def c4reqBadParam : HttpRequest :=
  { method := "POST",
    contentType := some { mediaType := "application/vnd.api+json", params := [("ext", "blah")] },
    accept := [], bodyValid := true }

def c4reqCharset : HttpRequest :=
  { method := "POST",
    contentType :=
      some { mediaType := "application/vnd.api+json", params := [("charset", "utf-8")] },
    accept := [], bodyValid := true }

def c4reqPatch : HttpRequest :=
  { method := "PATCH",
    contentType := some { mediaType := "application/vnd.api+json", params := [] },
    accept := [], bodyValid := true }

def c5req : HttpRequest :=
  { method := "POST",
    contentType := some { mediaType := "application/vnd.api+json", params := [] },
    accept := [{ media := "application/json", q := 1000 },
      { media := "application/vnd.api+json", q := 500 }],
    bodyValid := true }

/-! ## Heap model for accessor copy semantics

`type(name)`, `urlTemplates(name)` and the per-field getters convert the
internally stored immutable description to a fresh plain object via
`toJS` (part_002 lines 134, 150-151, 203).  The stored descriptions are
Immutable.js persistent values (pure `JVal`s here); the plain objects
handed to callers are mutable JS heap objects.  The heap is a store of
numbered cells with an allocation counter; `toJSCopy` allocates only
fresh cells (at addresses at or above the counter), so mutating cells of
a returned copy cannot change any pre-existing cell. -/
/-- A mutable JS heap node: a primitive slot, an array of references, or
an object mapping keys to references. -/
inductive HNode where
  | leaf : JVal → HNode
  | harr : List Nat → HNode
  | hobj : List (String × Nat) → HNode
deriving Repr

/-- The JS heap: newest cell first, plus the allocation counter. -/
structure Heap where
  mem : List (Nat × HNode)
  next : Nat
deriving Repr

/-- The references a node holds. -/
def nodeRefs : HNode → List Nat
  | HNode.leaf _ => []
  | HNode.harr rs => rs
  | HNode.hobj rs => rs.map Prod.snd

def lookupMem (h : Heap) (a : Nat) : Option HNode :=
  (h.mem.find? (fun e => e.1 = a)).map Prod.snd

/-- Allocate a fresh cell. -/
def alloc (nd : HNode) (h : Heap) : Nat × Heap :=
  (h.next, { mem := (h.next, nd) :: h.mem, next := h.next + 1 })

/-- Mutate the cell at an address (shadowing write; the counter is
unchanged). -/
def writeMem (h : Heap) (a : Nat) (nd : HNode) : Heap :=
  { mem := (a, nd) :: h.mem, next := h.next }

def writeAll (h : Heap) (ws : List (Nat × HNode)) : Heap :=
  ws.foldl (fun hh w => writeMem hh w.1 w.2) h

/-- Well-formed heap: every cell's address is below the counter and a
cell references only cells allocated before it. -/
def HeapWF (h : Heap) : Prop :=
  ∀ e ∈ h.mem, e.1 < h.next ∧ ∀ r ∈ nodeRefs e.2, r < e.1

instance (h : Heap) : Decidable (HeapWF h) := by
  unfold HeapWF; infer_instance

mutual

/-- The `toJS` conversion of part_002: convert an immutable value into a fresh tree of
plain JS heap objects, returning the root reference. -/
def toJSCopy : JVal → Heap → Nat × Heap
  | JVal.arr xs, h =>
      let p := copyList xs h
      alloc (HNode.harr p.1) p.2
  | JVal.obj kvs, h =>
      let p := copyEntries kvs h
      alloc (HNode.hobj p.1) p.2
  | v, h => alloc (HNode.leaf v) h

def copyList : List JVal → Heap → List Nat × Heap
  | [], h => ([], h)
  | x :: xs, h =>
      let p := toJSCopy x h
      let q := copyList xs p.2
      (p.1 :: q.1, q.2)

def copyEntries : List (String × JVal) → Heap → List (String × Nat) × Heap
  | [], h => ([], h)
  | (k, x) :: xs, h =>
      let p := toJSCopy x h
      let q := copyEntries xs p.2
      ((k, p.1) :: q.1, q.2)

end

/-- Read a list of references back with a given reader. -/
def readRefsWith (f : Nat → Option JVal) : List Nat → Option (List JVal)
  | [] => some []
  | r :: rs =>
      match f r, readRefsWith f rs with
      | some v, some vs => some (v :: vs)
      | _, _ => none

/-- Read an object's fields back with a given reader. -/
def readFieldsWith (f : Nat → Option JVal) :
    List (String × Nat) → Option (List (String × JVal))
  | [] => some []
  | (k, r) :: rs =>
      match f r, readFieldsWith f rs with
      | some v, some vs => some ((k, v) :: vs)
      | _, _ => none

/-- Dereference a heap tree back into a value (fuelled). -/
def readBack : Nat → Heap → Nat → Option JVal
  | 0, _, _ => none
  | fuel + 1, h, a =>
      match lookupMem h a with
      | some (HNode.leaf v) => some v
      | some (HNode.harr rs) => (readRefsWith (readBack fuel h) rs).map JVal.arr
      | some (HNode.hobj rs) => (readFieldsWith (readBack fuel h) rs).map JVal.obj
      | none => none

/-- Every cell's address is below the allocation counter (so the counter
is always a fresh address). -/
def NextFresh (h : Heap) : Prop := ∀ e ∈ h.mem, e.1 < h.next

/-- C10 fixture: a one-type registry; a heap with one pre-existing cell;
a mutation of the first freshly allocated cell. -/
def c10ds : List (String × JVal) :=
  [("T", JVal.obj [("info", JVal.obj [("description", JVal.s "d")])])]

def c10reg : List (String × JVal) := (buildRegistry c10ds (JVal.obj [])).toOption.getD []

def c10v : JVal :=
  JVal.obj [("behaviors", JVal.obj [("dasherizeOutput", JVal.obj [("enabled", JVal.tf true)])]),
    ("info", JVal.obj [("description", JVal.s "d")])]

def c10heap : Heap := ⟨[(0, HNode.leaf (JVal.s "keep"))], 1⟩

def c10ws : List (Nat × HNode) := [(1, HNode.leaf (JVal.s "mutated"))]

/-! ## Lemmas and claim theorems -/

theorem beqList_iff (a : List JVal)
    (ih : ∀ x ∈ a, ∀ y : JVal, JVal.beq x y = true ↔ x = y) :
    ∀ c, beqList a c = true ↔ a = c := by
  induction a with
  | nil => intro c; cases c <;> simp [beqList]
  | cons x xs ihl =>
      intro c
      cases c with
      | nil => simp [beqList]
      | cons y ys =>
          simp only [beqList, Bool.and_eq_true, List.cons.injEq]
          rw [ih x (by simp), ihl (fun z hz => ih z (by simp [hz]))]

theorem beqEntries_iff (a : List (String × JVal))
    (ih : ∀ p ∈ a, ∀ y : JVal, JVal.beq p.2 y = true ↔ p.2 = y) :
    ∀ c, beqEntries a c = true ↔ a = c := by
  induction a with
  | nil => intro c; cases c <;> simp [beqEntries]
  | cons p ps ihl =>
      intro c
      obtain ⟨k, x⟩ := p
      cases c with
      | nil => simp [beqEntries]
      | cons q qs =>
          obtain ⟨l, y⟩ := q
          simp only [beqEntries, Bool.and_eq_true, List.cons.injEq, Prod.mk.injEq,
            beq_iff_eq]
          rw [ih (k, x) (by simp), ihl (fun z hz => ih z (by simp [hz]))]

theorem sizeOf_pos_jval (y : JVal) : 0 < sizeOf y := by
  cases y <;> simp_arith

theorem size_pos_jval (y : JVal) : 0 < y.size := by
  cases y <;> simp_arith [JVal.size]

theorem size_lt_of_mem_entries {k : String} {x : JVal} {l : List (String × JVal)}
    (h : (k, x) ∈ l) : x.size < sizeEntries l := by
  induction l with
  | nil => cases h
  | cons hd tl ih =>
      obtain ⟨k', x'⟩ := hd
      rcases List.mem_cons.mp h with h1 | h2
      · obtain ⟨rfl, rfl⟩ := Prod.mk.injEq .. ▸ h1
        simp_arith [sizeEntries]
      · have := ih h2
        simp_arith [sizeEntries]
        omega

theorem size_lt_of_mem_obj {k : String} {x : JVal} {l : List (String × JVal)}
    (h : (k, x) ∈ l) : x.size < (JVal.obj l).size := by
  have := size_lt_of_mem_entries h
  simp only [JVal.size]
  omega

theorem sizeOf_lt_of_mem_arr {x : JVal} {l : List JVal} (h : x ∈ l) :
    sizeOf x < sizeOf (JVal.arr l) := by
  have := List.sizeOf_lt_of_mem h
  simp only [JVal.arr.sizeOf_spec]
  omega

theorem sizeOf_lt_of_mem_obj {k : String} {x : JVal} {l : List (String × JVal)}
    (h : (k, x) ∈ l) : sizeOf x < sizeOf (JVal.obj l) := by
  have h1 := List.sizeOf_lt_of_mem h
  have h2 : sizeOf x < sizeOf (k, x) := by simp_arith
  simp only [JVal.obj.sizeOf_spec]
  omega

theorem jval_beq_iff_eq : ∀ (x y : JVal), JVal.beq x y = true ↔ x = y
  | x, y => by
    cases x <;> cases y <;>
      simp only [JVal.beq, beq_iff_eq, JVal.s.injEq, JVal.num.injEq, JVal.tf.injEq,
        JVal.fn.injEq, JVal.arr.injEq, JVal.obj.injEq] <;>
      try simp
    case arr.arr a c =>
      exact beqList_iff a (fun z hz w => jval_beq_iff_eq z w) c
    case obj.obj a c =>
      exact beqEntries_iff a (fun p hp w => jval_beq_iff_eq p.2 w) c
termination_by x _ => sizeOf x
decreasing_by
  · exact sizeOf_lt_of_mem_arr hz
  · obtain ⟨k, z⟩ := p
    exact sizeOf_lt_of_mem_obj hp

instance : DecidableEq JVal := fun a b =>
  decidable_of_iff (JVal.beq a b = true) (jval_beq_iff_eq a b)

theorem mergeListWith_congr (f g : JVal → JVal → JVal)
    (b : List (String × JVal)) (h : ∀ k w, (k, w) ∈ b → ∀ v, f v w = g v w) :
    ∀ a, mergeListWith f a b = mergeListWith g a b := by
  induction b with
  | nil => intro a; rfl
  | cons hd rest ih =>
      intro a
      obtain ⟨k, w⟩ := hd
      simp only [mergeListWith]
      have hfw : ∀ v, f v w = g v w := h k w (by simp)
      have hrest : ∀ k' w', (k', w') ∈ rest → ∀ v, f v w' = g v w' :=
        fun k' w' hm v => h k' w' (by simp [hm]) v
      cases hl : lookupKey a k <;> simp only [hl] <;> rw [ih hrest]
      rw [hfw]

theorem mergeDeepF_fuel : ∀ (n m : Nat) (x y : JVal),
    y.size ≤ n → y.size ≤ m → mergeDeepF n x y = mergeDeepF m x y
  | 0, _, _, y, hn, _ => absurd hn (by have := size_pos_jval y; omega)
  | _ + 1, 0, _, y, _, hm => absurd hm (by have := size_pos_jval y; omega)
  | n + 1, m + 1, x, y, hn, hm => by
      cases x <;> cases y <;> simp only [mergeDeepF]
      case obj.obj a b =>
        refine congrArg JVal.obj (mergeListWith_congr _ _ b ?_ a)
        intro k w hmem v
        have hw : w.size < (JVal.obj b).size := size_lt_of_mem_obj hmem
        exact mergeDeepF_fuel n m v w (by omega) (by omega)
termination_by n _ _ _ _ _ => n
decreasing_by omega

/-- Unfolding rule: merging two mapping-like values merges their entries
recursively. -/
theorem mergeDeep_obj_obj (a b : List (String × JVal)) :
    mergeDeep (JVal.obj a) (JVal.obj b) = JVal.obj (mergeListWith mergeDeep a b) := by
  have hpos := size_pos_jval (JVal.obj b)
  obtain ⟨c, hc⟩ : ∃ c, (JVal.obj b).size = c + 1 :=
    ⟨(JVal.obj b).size - 1, by omega⟩
  unfold mergeDeep
  rw [hc]
  simp only [mergeDeepF]
  refine congrArg JVal.obj (mergeListWith_congr _ _ b ?_ a)
  intro k w hmem v
  have hw : w.size < (JVal.obj b).size := size_lt_of_mem_obj hmem
  exact mergeDeepF_fuel c w.size v w (by omega) (by omega)

/-- Unfolding rule: if either side is not mapping-like, the child value
replaces the parent value entirely. -/
theorem mergeDeep_replace (x y : JVal) (h : x.isObj = false ∨ y.isObj = false) :
    mergeDeep x y = y := by
  have hpos := size_pos_jval y
  obtain ⟨c, hc⟩ : ∃ c, y.size = c + 1 := ⟨y.size - 1, by omega⟩
  unfold mergeDeep
  rw [hc]
  cases x <;> cases y <;> simp_all [mergeDeepF, JVal.isObj]

-- Basic lemmas about the association-list primitives.
theorem lookupKey_append (a b : List (String × JVal)) (k : String) :
    lookupKey (a ++ b) k = ((lookupKey a k).orElse (fun _ => lookupKey b k)) := by
  induction a with
  | nil => simp [lookupKey]
  | cons hd tl ih =>
      obtain ⟨k', v'⟩ := hd
      by_cases h : k' = k <;> simp [lookupKey, h, ih]

theorem lookupKey_setKey_self (a : List (String × JVal)) (k : String) (v : JVal) :
    lookupKey (setKey a k v) k = some v := by
  induction a with
  | nil => simp [setKey, lookupKey]
  | cons hd tl ih =>
      obtain ⟨k', v'⟩ := hd
      by_cases h : k' = k <;> simp [setKey, lookupKey, h, ih]

theorem lookupKey_setKey_other (a : List (String × JVal)) (k k' : String) (v : JVal)
    (hne : k' ≠ k) : lookupKey (setKey a k v) k' = lookupKey a k' := by
  have hne' : ¬(k = k') := fun h => hne h.symm
  induction a with
  | nil => simp [setKey, lookupKey, hne']
  | cons hd tl ih =>
      obtain ⟨k₀, v₀⟩ := hd
      by_cases h : k₀ = k
      · subst h
        simp [setKey, lookupKey, hne']
      · simp only [setKey, if_neg h, lookupKey]
        by_cases h' : k₀ = k' <;> simp [h', ih]

theorem get_set_self (v : JVal) (hv : v.isObj = true) (k : String) (x : JVal) :
    (v.set k x).get k = x := by
  cases v <;> simp_all [JVal.isObj, JVal.set, JVal.get, lookupKey_setKey_self]

theorem get_set_other (v : JVal) (k k' : String) (x : JVal) (hne : k' ≠ k) :
    (v.set k x).get k' = v.get k' := by
  cases v <;> simp_all [JVal.set, JVal.get, lookupKey_setKey_other]

theorem lookupKey_eq_none_iff (l : List (String × JVal)) (k : String) :
    lookupKey l k = none ↔ k ∉ keys l := by
  induction l with
  | nil => simp [lookupKey, keys]
  | cons hd tl ih =>
      obtain ⟨k', v'⟩ := hd
      by_cases h : k' = k <;> simp [lookupKey, keys, h, ih, Ne.symm]

theorem keysNodup_cons {k : String} {v : JVal} {l : List (String × JVal)} :
    KeysNodup ((k, v) :: l) ↔ k ∉ keys l ∧ KeysNodup l := by
  simp [KeysNodup, keys]

-- Characterization of the deep merge entry fold, key by key.
theorem mergeListWith_lookup_none (f : JVal → JVal → JVal)
    (b : List (String × JVal)) (k : String) (hb : lookupKey b k = none) :
    ∀ a, lookupKey (mergeListWith f a b) k = lookupKey a k := by
  induction b with
  | nil => intro a; rfl
  | cons hd rest ih =>
      intro a
      obtain ⟨k', w'⟩ := hd
      by_cases h : k' = k
      · simp [lookupKey, h] at hb
      · simp only [lookupKey, if_neg h] at hb
        simp only [mergeListWith]
        rw [ih hb]
        exact lookupKey_setKey_other a k' k _ (fun he => h he.symm)

theorem mergeListWith_lookup_new (f : JVal → JVal → JVal)
    (b : List (String × JVal)) (k : String) (w : JVal) (hnd : KeysNodup b)
    (hb : lookupKey b k = some w) :
    ∀ a, lookupKey a k = none → lookupKey (mergeListWith f a b) k = some w := by
  induction b with
  | nil => simp [lookupKey] at hb
  | cons hd rest ih =>
      intro a ha
      obtain ⟨k', w'⟩ := hd
      obtain ⟨hk', hndr⟩ := keysNodup_cons.mp hnd
      by_cases h : k' = k
      · subst h
        simp [lookupKey] at hb
        subst hb
        simp only [mergeListWith, ha]
        have hrest : lookupKey rest k' = none := (lookupKey_eq_none_iff rest k').mpr hk'
        rw [mergeListWith_lookup_none f rest k' hrest]
        exact lookupKey_setKey_self a k' w'
      · simp only [lookupKey, if_neg h] at hb
        simp only [mergeListWith]
        exact ih hndr hb _ (by rw [lookupKey_setKey_other a k' k _ (fun he => h he.symm)]; exact ha)

theorem mergeListWith_lookup_both (f : JVal → JVal → JVal)
    (b : List (String × JVal)) (k : String) (v w : JVal) (hnd : KeysNodup b)
    (hb : lookupKey b k = some w) :
    ∀ a, lookupKey a k = some v → lookupKey (mergeListWith f a b) k = some (f v w) := by
  induction b with
  | nil => simp [lookupKey] at hb
  | cons hd rest ih =>
      intro a ha
      obtain ⟨k', w'⟩ := hd
      obtain ⟨hk', hndr⟩ := keysNodup_cons.mp hnd
      by_cases h : k' = k
      · subst h
        simp [lookupKey] at hb
        subst hb
        simp only [mergeListWith, ha]
        have hrest : lookupKey rest k' = none := (lookupKey_eq_none_iff rest k').mpr hk'
        rw [mergeListWith_lookup_none f rest k' hrest]
        exact lookupKey_setKey_self a k' (f v w')
      · simp only [lookupKey, if_neg h] at hb
        simp only [mergeListWith]
        exact ih hndr hb _ (by rw [lookupKey_setKey_other a k' k _ (fun he => h he.symm)]; exact ha)

-- Further merge facts used by the registry proofs.
theorem isObj_eq_true_iff (x : JVal) : x.isObj = true ↔ ∃ l, x = JVal.obj l := by
  cases x <;> simp [JVal.isObj]

theorem mergeDeep_isObj_right (x y : JVal) (hy : y.isObj = true) :
    (mergeDeep x y).isObj = true := by
  obtain ⟨b, rfl⟩ := (isObj_eq_true_iff y).mp hy
  cases hx : x.isObj
  · rw [mergeDeep_replace x _ (Or.inl hx)]; rfl
  · obtain ⟨a, rfl⟩ := (isObj_eq_true_iff x).mp hx
    rw [mergeDeep_obj_obj]; rfl

/-- Merging nothing into a value leaves it unchanged (the entry fold over
an empty child list is the identity). -/
theorem mergeDeep_obj_nil (a : List (String × JVal)) :
    mergeDeep (JVal.obj a) (JVal.obj []) = JVal.obj a := by
  rw [mergeDeep_obj_obj]; rfl

theorem registerOne_eq (ds : List (String × JVal)) (ed : JVal)
    (reg : List (String × JVal)) (t : String) :
    registerOne ds ed reg t =
      match lookupKey ds t with
      | none => reg
      | some raw => reg ++ [(t, mergedDescription ed reg raw)] := by
  cases h : lookupKey ds t <;> simp [registerOne, mergedDescription, h]

theorem lookupKey_some_mem {l : List (String × JVal)} {k : String} {v : JVal}
    (h : lookupKey l k = some v) : (k, v) ∈ l := by
  induction l with
  | nil => simp [lookupKey] at h
  | cons hd tl ih =>
      obtain ⟨k', v'⟩ := hd
      by_cases he : k' = k
      · subst he
        simp [lookupKey] at h
        simp [h]
      · simp only [lookupKey, if_neg he] at h
        exact List.mem_cons_of_mem _ (ih h)

theorem lookupKey_isSome_of_mem {l : List (String × JVal)} {k : String}
    (h : k ∈ keys l) : ∃ v, lookupKey l k = some v := by
  induction l with
  | nil => simp [keys] at h
  | cons hd tl ih =>
      obtain ⟨k', v'⟩ := hd
      by_cases he : k' = k
      · exact ⟨v', by simp [lookupKey, he]⟩
      · simp only [keys, List.map_cons, List.mem_cons] at h
        rcases h with h | h
        · exact absurd h.symm he
        · simpa [lookupKey, he] using ih h

theorem mem_keys_of_lookupKey_some {l : List (String × JVal)} {k : String} {v : JVal}
    (h : lookupKey l k = some v) : k ∈ keys l := by
  have := lookupKey_some_mem h
  exact List.mem_map.mpr ⟨(k, v), this, rfl⟩

theorem parentTypeOf_some_isObj {d : JVal} {p : String} (h : parentTypeOf d = some p) :
    d.isObj = true := by
  cases d <;> simp_all [parentTypeOf, JVal.get, JVal.isObj]

theorem set_isObj_of_isObj (v : JVal) (hv : v.isObj = true) (k : String) (x : JVal) :
    (v.set k x).isObj = true := by
  cases v <;> simp_all [JVal.set, JVal.isObj]

theorem mergedDescription_isObj (ed : JVal) (reg : List (String × JVal)) (raw : JVal)
    (hraw : raw.isObj = true) :
    (mergedDescription ed reg raw).isObj = true := by
  unfold mergedDescription
  cases hp : parentTypeOf raw
  · exact mergeDeep_isObj_right ed raw hraw
  · exact set_isObj_of_isObj _ (mergeDeep_isObj_right _ raw hraw) _ _

theorem foldl_register_values_obj (ds : List (String × JVal)) (ed : JVal)
    (hobjs : ∀ e ∈ ds, (e.2 : JVal).isObj = true) :
    ∀ (l : List String) (reg : List (String × JVal)),
      (∀ e ∈ reg, (e.2 : JVal).isObj = true) →
      ∀ e ∈ l.foldl (registerOne ds ed) reg, (e.2 : JVal).isObj = true := by
  intro l
  induction l with
  | nil => intro reg hreg e he; exact hreg e he
  | cons n rest ih =>
      intro reg hreg e he
      rw [List.foldl_cons] at he
      refine ih _ ?_ e he
      intro e' he'
      rw [registerOne_eq] at he'
      cases hd : lookupKey ds n with
      | none => rw [hd] at he'; exact hreg e' he'
      | some raw =>
          rw [hd] at he'
          rcases List.mem_append.mp he' with h | h
          · exact hreg e' h
          · have hraw : raw.isObj = true := hobjs (n, raw) (lookupKey_some_mem hd)
            simp only [List.mem_singleton] at h
            subst h
            exact mergedDescription_isObj ed reg raw hraw

theorem protoRead_own {reg : List (String × JVal)} {n : String} {v : JVal}
    (h : lookupKey reg n = some v) : protoRead reg n = v := by
  unfold protoRead
  rw [h]

theorem doGet_registered {reg : List (String × JVal)} {n : String} {m : JVal}
    (h : lookupKey reg n = some m) (hm : m.isObj = true) (a : String) :
    doGet a reg n = Except.ok (optOfVal (m.get a)) := by
  obtain ⟨l, rfl⟩ := (isObj_eq_true_iff m).mp hm
  unfold doGet
  rw [protoRead_own h]
  rfl

theorem lookup_foldl_some (ds : List (String × JVal)) (ed : JVal)
    (l : List String) (reg : List (String × JVal)) (t : String) (v : JVal)
    (h : lookupKey reg t = some v) :
    lookupKey (l.foldl (registerOne ds ed) reg) t = some v := by
  induction l generalizing reg with
  | nil => exact h
  | cons n rest ih =>
      rw [List.foldl_cons]
      apply ih
      rw [registerOne_eq]
      cases hd : lookupKey ds n
      · exact h
      · rw [lookupKey_append]
        simp [h, Option.orElse]

theorem lookup_foldl_none (ds : List (String × JVal)) (ed : JVal)
    (l : List String) (reg : List (String × JVal)) (t : String)
    (h : lookupKey reg t = none) (hnot : t ∉ l) :
    lookupKey (l.foldl (registerOne ds ed) reg) t = none := by
  induction l generalizing reg with
  | nil => exact h
  | cons n rest ih =>
      rw [List.foldl_cons]
      have hn : ¬(n = t) := fun he => hnot (by simp [he])
      apply ih
      · rw [registerOne_eq]
        cases hd : lookupKey ds n
        · exact h
        · rw [lookupKey_append]
          simp [h, Option.orElse, lookupKey, hn]
      · exact fun hm => hnot (by simp [hm])

theorem lookup_foldl_register (ds : List (String × JVal)) (ed : JVal)
    (l1 l2 : List String) (t : String) (raw : JVal)
    (h1 : t ∉ l1) (h2 : t ∉ l2) (hraw : lookupKey ds t = some raw) :
    lookupKey ((l1 ++ t :: l2).foldl (registerOne ds ed) []) t =
      some (mergedDescription ed (l1.foldl (registerOne ds ed) []) raw) := by
  rw [List.foldl_append, List.foldl_cons]
  have hnone : lookupKey (l1.foldl (registerOne ds ed) []) t = none :=
    lookup_foldl_none ds ed l1 [] t rfl h1
  apply lookup_foldl_some
  rw [registerOne_eq, hraw, lookupKey_append]
  simp [hnone, Option.orElse, lookupKey]

-- Lemmas about the topological resolver.
theorem findReady_eq_some (done : List String) :
    ∀ (pending rest : List (String × Option String)) (n : String),
      findReady done pending = some (n, rest) →
      ∃ p l1 l2, pending = l1 ++ (n, p) :: l2 ∧ rest = l1 ++ l2 ∧
        ready done p = true ∧ ∀ e ∈ l1, ready done e.2 = false := by
  intro pending
  induction pending with
  | nil => intro rest n h; simp [findReady] at h
  | cons hd tl ih =>
      intro rest n h
      obtain ⟨n', p'⟩ := hd
      by_cases hr : ready done p' = true
      · rw [findReady, if_pos hr] at h
        have h2 : n' = n ∧ tl = rest := by simpa using h
        obtain ⟨rfl, rfl⟩ := h2
        exact ⟨p', [], tl, rfl, rfl, hr, by simp⟩
      · rw [findReady, if_neg hr] at h
        cases hf : findReady done tl with
        | none => rw [hf] at h; simp at h
        | some r =>
            obtain ⟨m, r'⟩ := r
            rw [hf] at h
            have h2 : m = n ∧ (n', p') :: r' = rest := by simpa using h
            obtain ⟨rfl, rfl⟩ := h2
            obtain ⟨p, l1, l2, hp1, hp2, hp3, hp4⟩ := ih r' m hf
            refine ⟨p, (n', p') :: l1, l2, by rw [hp1]; simp, by rw [hp2]; simp, hp3, ?_⟩
            intro e he
            rcases List.mem_cons.mp he with rfl | he'
            · simpa using hr
            · exact hp4 e he'

theorem findReady_isSome (done : List String) :
    ∀ (pending : List (String × Option String)),
      (∃ e ∈ pending, ready done e.2 = true) → (findReady done pending).isSome = true := by
  intro pending
  induction pending with
  | nil => rintro ⟨e, he, _⟩; cases he
  | cons hd tl ih =>
      rintro ⟨e, he, hr⟩
      obtain ⟨n', p'⟩ := hd
      by_cases hr' : ready done p' = true
      · simp [findReady, hr']
      · rw [findReady, if_neg hr']
        rcases List.mem_cons.mp he with rfl | he'
        · exact absurd hr hr'
        · have hs := ih ⟨e, he', hr⟩
          cases hf : findReady done tl with
          | none => rw [hf] at hs; simp at hs
          | some r => simp [hf]

theorem sortLoop_ok_shape : ∀ (fuel : Nat) (pending : List (String × Option String))
    (done res : List String),
    sortLoop fuel pending done = Except.ok res →
    ∃ tail, res = done ++ tail ∧ tail.Perm (pending.map Prod.fst) := by
  intro fuel
  induction fuel with
  | zero =>
      intro pending done res h
      cases pending with
      | nil =>
          simp only [sortLoop, Except.ok.injEq] at h
          exact ⟨[], by simp [h], by simp⟩
      | cons e tl => simp [sortLoop] at h
  | succ fuel ih =>
      intro pending done res h
      cases pending with
      | nil =>
          simp only [sortLoop, Except.ok.injEq] at h
          exact ⟨[], by simp [h], by simp⟩
      | cons e tl =>
          rw [sortLoop] at h
          cases hf : findReady done (e :: tl) with
          | none => rw [hf] at h; simp at h
          | some r =>
              obtain ⟨n₀, rest⟩ := r
              rw [hf] at h
              obtain ⟨tail', htail1, htail2⟩ := ih rest (done ++ [n₀]) res h
              obtain ⟨p₀, l1, l2, hp1, hp2, _, _⟩ := findReady_eq_some done (e :: tl) rest n₀ hf
              refine ⟨n₀ :: tail', by simpa using htail1, ?_⟩
              have hperm1 : List.Perm (n₀ :: tail') (n₀ :: rest.map Prod.fst) := htail2.cons n₀
              have hperm2 : List.Perm (n₀ :: rest.map Prod.fst) ((e :: tl).map Prod.fst) := by
                rw [hp1, hp2]
                simp only [List.map_append, List.map_cons]
                exact List.perm_middle.symm
              exact hperm1.trans hperm2

theorem nodup_step {done : List String} {l1 l2 : List (String × Option String)}
    {n₀ : String} {p₀ : Option String}
    (hnd : (done ++ (l1 ++ (n₀, p₀) :: l2).map Prod.fst).Nodup) :
    ((done ++ [n₀]) ++ (l1 ++ l2).map Prod.fst).Nodup := by
  have hperm : List.Perm (done ++ (l1 ++ (n₀, p₀) :: l2).map Prod.fst)
      ((done ++ [n₀]) ++ (l1 ++ l2).map Prod.fst) := by
    simp only [List.map_append, List.map_cons, List.append_assoc, List.singleton_append]
    exact List.Perm.append_left done List.perm_middle
  exact hperm.nodup hnd

theorem entry_eq_of_nodup {l1 l2 : List (String × Option String)}
    {n₀ : String} {p₀ p : Option String}
    (hnd : ((l1 ++ (n₀, p₀) :: l2).map Prod.fst).Nodup)
    (hmem : (n₀, p) ∈ l1 ++ (n₀, p₀) :: l2) : p = p₀ := by
  simp only [List.map_append, List.map_cons] at hnd
  obtain ⟨hA, hB, hdisj⟩ := List.nodup_append.mp hnd
  have h1 : n₀ ∉ l1.map Prod.fst := fun hn => (List.disjoint_left.mp hdisj hn) (by simp)
  have h2 : n₀ ∉ l2.map Prod.fst := (List.nodup_cons.mp hB).1
  rcases List.mem_append.mp hmem with h | h
  · exact absurd (List.mem_map.mpr ⟨(n₀, p), h, rfl⟩) h1
  · rcases List.mem_cons.mp h with h | h
    · simpa using congrArg Prod.snd h
    · exact absurd (List.mem_map.mpr ⟨(n₀, p), h, rfl⟩) h2

theorem sortLoop_parent_index : ∀ (fuel : Nat) (pending : List (String × Option String))
    (done res : List String),
    sortLoop fuel pending done = Except.ok res →
    (done ++ pending.map Prod.fst).Nodup →
    ∀ n p, (n, some p) ∈ pending →
      (p ∈ done ∨ p ∈ pending.map Prod.fst) →
      res.indexOf p < res.indexOf n := by
  intro fuel
  induction fuel with
  | zero =>
      intro pending done res h _ n p hmem _
      cases pending with
      | nil => cases hmem
      | cons e tl => simp [sortLoop] at h
  | succ fuel ih =>
      intro pending done res h hnd n p hmem hloc
      cases pending with
      | nil => cases hmem
      | cons e tl =>
          rw [sortLoop] at h
          cases hf : findReady done (e :: tl) with
          | none => rw [hf] at h; simp at h
          | some r =>
              obtain ⟨n₀, rest⟩ := r
              rw [hf] at h
              obtain ⟨p₀, l1, l2, hp1, hp2, hready, _⟩ :=
                findReady_eq_some done (e :: tl) rest n₀ hf
              obtain ⟨tail, htl1, htl2⟩ := sortLoop_ok_shape fuel rest (done ++ [n₀]) res h
              have hres : res = done ++ n₀ :: tail := by simpa using htl1
              have hnd' : ((done ++ [n₀]) ++ rest.map Prod.fst).Nodup := by
                rw [hp1] at hnd; rw [hp2]; exact nodup_step hnd
              by_cases hn : n = n₀
              · subst hn
                have hnames : ((l1 ++ (n, p₀) :: l2).map Prod.fst).Nodup := by
                  have := hnd.of_append_right
                  rwa [hp1] at this
                have hpp : some p = p₀ := entry_eq_of_nodup hnames (hp1 ▸ hmem)
                have hpin : p ∈ done := by
                  rw [← hpp] at hready
                  simpa [ready] using hready
                have hnotin : n ∉ done := by
                  have hdisj := (List.nodup_append.mp hnd).2.2
                  intro hc
                  exact (List.disjoint_left.mp hdisj hc) (by rw [hp1]; simp)
                rw [hres, List.indexOf_append_of_mem hpin, List.indexOf_append_of_not_mem hnotin]
                have h1 : List.indexOf p done < done.length := List.indexOf_lt_length.mpr hpin
                have h2 : List.indexOf n (n :: tail) = 0 := List.indexOf_cons_self n tail
                omega
              · have hmem' : (n, some p) ∈ rest := by
                  rw [hp2]
                  rw [hp1] at hmem
                  rcases List.mem_append.mp hmem with h' | h'
                  · exact List.mem_append.mpr (Or.inl h')
                  · rcases List.mem_cons.mp h' with h'' | h''
                    · exact absurd (congrArg Prod.fst h'') (by simpa using hn)
                    · exact List.mem_append.mpr (Or.inr h'')
                have hloc' : p ∈ (done ++ [n₀]) ∨ p ∈ rest.map Prod.fst := by
                  rcases hloc with h' | h'
                  · exact Or.inl (by simp [h'])
                  · by_cases hpn : p = n₀
                    · exact Or.inl (by simp [hpn])
                    · right
                      rw [hp1] at h'
                      rw [hp2]
                      simp only [List.map_append, List.map_cons] at h' ⊢
                      rcases List.mem_append.mp h' with h'' | h''
                      · exact List.mem_append.mpr (Or.inl h'')
                      · rcases List.mem_cons.mp h'' with h''' | h'''
                        · exact absurd h''' hpn
                        · exact List.mem_append.mpr (Or.inr h''')
                exact ih rest (done ++ [n₀]) res h hnd' n p hmem' hloc'

theorem mem_of_mem_middle {α : Type _} {x a : α} {l1 l2 : List α}
    (h : a ∈ l1 ++ l2) : a ∈ l1 ++ x :: l2 := by
  rcases List.mem_append.mp h with h | h
  · exact List.mem_append.mpr (Or.inl h)
  · exact List.mem_append.mpr (Or.inr (List.mem_cons_of_mem _ h))

theorem mem_middle_of_ne {α : Type _} {x a : α} {l1 l2 : List α}
    (h : a ∈ l1 ++ x :: l2) (hne : a ≠ x) : a ∈ l1 ++ l2 := by
  rcases List.mem_append.mp h with h | h
  · exact List.mem_append.mpr (Or.inl h)
  · rcases List.mem_cons.mp h with h | h
    · exact absurd h hne
    · exact List.mem_append.mpr (Or.inr h)

theorem sublist_of_sublist_cons_not_mem {α : Type _} {x : α} {s l : List α}
    (h : List.Sublist s (x :: l)) (hn : x ∉ s) : List.Sublist s l := by
  rcases List.sublist_cons_iff.mp h with h' | h'
  · exact h'
  · obtain ⟨r, rfl, _⟩ := h'
    simp at hn

/-- If a two-element sublist crosses a split point and its second element
occurs in neither side, the first element lies in the left part. -/
theorem mem_left_of_pair_sublist {α : Type _} {a b c : α} {l1 l2 : List α}
    (h : List.Sublist [a, b] (l1 ++ c :: l2)) (hb1 : b ∉ l1) (hb2 : b ∉ l2) :
    a ∈ l1 := by
  rcases List.sublist_append_iff.mp h with ⟨s, t, hst, hs, ht⟩
  cases s with
  | nil =>
      simp only [List.nil_append] at hst
      subst hst
      rcases List.sublist_cons_iff.mp ht with ht' | ht'
      · exact absurd (ht'.mem (by simp)) hb2
      · obtain ⟨r, hr1, hr2⟩ := ht'
        injection hr1 with hac hr1'
        subst hr1'
        exact absurd (hr2.mem (by simp)) hb2
  | cons z s' =>
      cases s' with
      | nil =>
          simp only [List.cons_append, List.nil_append] at hst
          injection hst with haz hbt
          subst haz
          exact hs.mem (by simp)
      | cons y s'' =>
          have h1 : [a, b] = z :: y :: (s'' ++ t) := by simpa using hst
          injection h1 with haz h1'
          injection h1' with hby h1''
          subst haz
          subst hby
          exact absurd (hs.mem (by simp)) hb1

theorem sortLoop_sibling : ∀ (fuel : Nat) (pending : List (String × Option String))
    (done res : List String),
    sortLoop fuel pending done = Except.ok res →
    (done ++ pending.map Prod.fst).Nodup →
    ∀ n1 n2 p, List.Sublist [(n1, p), (n2, p)] pending →
      res.indexOf n1 < res.indexOf n2 := by
  intro fuel
  induction fuel with
  | zero =>
      intro pending done res h hnd n1 n2 p hsub
      cases pending with
      | nil => simp at hsub
      | cons e tl => simp [sortLoop] at h
  | succ fuel ih =>
      intro pending done res h hnd n1 n2 p hsub
      cases pending with
      | nil => simp at hsub
      | cons e tl =>
          rw [sortLoop] at h
          cases hf : findReady done (e :: tl) with
          | none => rw [hf] at h; simp at h
          | some r =>
              obtain ⟨n₀, rest⟩ := r
              rw [hf] at h
              obtain ⟨p₀, l1, l2, hp1, hp2, hready, hnr⟩ :=
                findReady_eq_some done (e :: tl) rest n₀ hf
              obtain ⟨tail, htl1, htl2⟩ := sortLoop_ok_shape fuel rest (done ++ [n₀]) res h
              have hres : res = done ++ n₀ :: tail := by simpa using htl1
              have hnd' : ((done ++ [n₀]) ++ rest.map Prod.fst).Nodup := by
                rw [hp1] at hnd; rw [hp2]; exact nodup_step hnd
              have hnames : ((e :: tl).map Prod.fst).Nodup := hnd.of_append_right
              have hne12 : n1 ≠ n2 := by
                have hmapsub : List.Sublist [n1, n2] ((e :: tl).map Prod.fst) := by
                  have := hsub.map Prod.fst
                  simpa using this
                have := hnames.sublist hmapsub
                simpa using this
              have hmem1 : (n1, p) ∈ e :: tl := hsub.mem (by simp)
              have hmem2 : (n2, p) ∈ e :: tl := hsub.mem (by simp)
              have hnamesplit : ((l1 ++ (n₀, p₀) :: l2).map Prod.fst).Nodup := by
                rwa [hp1] at hnames
              have hside : n₀ ∉ l1.map Prod.fst ∧ n₀ ∉ l2.map Prod.fst := by
                simp only [List.map_append, List.map_cons] at hnamesplit
                obtain ⟨hA, hB, hdisj⟩ := List.nodup_append.mp hnamesplit
                exact ⟨fun hn => (List.disjoint_left.mp hdisj hn) (by simp),
                  (List.nodup_cons.mp hB).1⟩
              by_cases h2 : n2 = n₀
              · exfalso
                subst h2
                have hpp : p = p₀ := entry_eq_of_nodup hnamesplit (hp1 ▸ hmem2)
                have hb1 : (n2, p) ∉ l1 :=
                  fun hc => hside.1 (List.mem_map.mpr ⟨(n2, p), hc, rfl⟩)
                have hb2 : (n2, p) ∉ l2 :=
                  fun hc => hside.2 (List.mem_map.mpr ⟨(n2, p), hc, rfl⟩)
                have hin1 : (n1, p) ∈ l1 :=
                  mem_left_of_pair_sublist (hp1 ▸ hsub) hb1 hb2
                have := hnr (n1, p) hin1
                rw [hpp] at this
                rw [this] at hready
                simp at hready
              · by_cases h1 : n1 = n₀
                · subst h1
                  have hmem2' : (n2, p) ∈ rest := by
                    rw [hp2]
                    exact mem_middle_of_ne (hp1 ▸ hmem2)
                      (fun hc => h2 (congrArg Prod.fst hc))
                  have hn2tail : n2 ∈ tail := by
                    have : n2 ∈ rest.map Prod.fst := List.mem_map.mpr ⟨_, hmem2', rfl⟩
                    exact (htl2.mem_iff).mpr this
                  have hn1done : n1 ∉ done := by
                    have hdisj := (List.nodup_append.mp hnd).2.2
                    intro hc
                    exact (List.disjoint_left.mp hdisj hc) (by rw [hp1]; simp)
                  have hn2done : n2 ∉ done := by
                    have hdisj := (List.nodup_append.mp hnd).2.2
                    intro hc
                    refine (List.disjoint_left.mp hdisj hc) ?_
                    exact List.mem_map.mpr ⟨(n2, p), hmem2, rfl⟩
                  rw [hres, List.indexOf_append_of_not_mem hn1done,
                    List.indexOf_append_of_not_mem hn2done]
                  have ha : List.indexOf n1 (n1 :: tail) = 0 := List.indexOf_cons_self n1 tail
                  have hb : List.indexOf n2 (n1 :: tail) = (List.indexOf n2 tail) + 1 := by
                    rw [List.indexOf_cons_ne tail (fun hc => h2 ((hc : n1 = n2) ▸ rfl))]
                  omega
                · have hsub' : List.Sublist [(n1, p), (n2, p)] rest := by
                    rw [hp2]
                    rw [hp1] at hsub
                    rcases List.sublist_append_iff.mp hsub with ⟨s, t, hst, hs, ht⟩
                    have hnot : (n₀, p₀) ∉ t := by
                      intro hc
                      have : (n₀, p₀) ∈ ([(n1, p), (n2, p)] : List (String × Option String)) := by
                        rw [hst]
                        exact List.mem_append.mpr (Or.inr hc)
                      rcases List.mem_cons.mp this with hce | hce
                      · exact h1 (congrArg Prod.fst hce).symm
                      · rcases List.mem_cons.mp hce with hce' | hce'
                        · exact h2 (congrArg Prod.fst hce').symm
                        · cases hce'
                    have ht' : List.Sublist t l2 := sublist_of_sublist_cons_not_mem ht hnot
                    rw [hst]
                    exact hs.append ht'
                  exact ih rest (done ++ [n₀]) res h hnd' n1 n2 p hsub'

theorem sortLoop_cycle : ∀ (fuel : Nat) (pending : List (String × Option String))
    (done : List String) (S : List String),
    S ≠ [] →
    (∀ n ∈ S, ∃ p, p ∈ S ∧ (n, some p) ∈ pending) →
    (∀ n ∈ S, n ∉ done) →
    (pending.map Prod.fst).Nodup →
    ∀ res, sortLoop fuel pending done ≠ Except.ok res := by
  intro fuel
  induction fuel with
  | zero =>
      intro pending done S hS hclosed _ _ res
      cases pending with
      | nil =>
          obtain ⟨n, hn⟩ := List.exists_mem_of_ne_nil S hS
          obtain ⟨p, _, hmem⟩ := hclosed n hn
          cases hmem
      | cons e tl => simp [sortLoop]
  | succ fuel ih =>
      intro pending done S hS hclosed hdone hnd res
      cases pending with
      | nil =>
          obtain ⟨n, hn⟩ := List.exists_mem_of_ne_nil S hS
          obtain ⟨p, _, hmem⟩ := hclosed n hn
          cases hmem
      | cons e tl =>
          rw [sortLoop]
          cases hf : findReady done (e :: tl) with
          | none => simp
          | some r =>
              obtain ⟨n₀, rest⟩ := r
              obtain ⟨p₀, l1, l2, hp1, hp2, hready, _⟩ :=
                findReady_eq_some done (e :: tl) rest n₀ hf
              have hn₀ : n₀ ∉ S := by
                intro hc
                obtain ⟨p, hpS, hmem⟩ := hclosed n₀ hc
                have hpp : some p = p₀ :=
                  entry_eq_of_nodup (by rwa [hp1] at hnd) (hp1 ▸ hmem)
                rw [← hpp] at hready
                have : p ∈ done := by simpa [ready] using hready
                exact hdone p hpS this
              have hclosed' : ∀ n ∈ S, ∃ p, p ∈ S ∧ (n, some p) ∈ rest := by
                intro n hn
                obtain ⟨p, hpS, hmem⟩ := hclosed n hn
                refine ⟨p, hpS, ?_⟩
                rw [hp2]
                refine mem_middle_of_ne (hp1 ▸ hmem) ?_
                intro hc
                have hnn : n = n₀ := congrArg Prod.fst hc
                exact hn₀ (hnn ▸ hn)
              have hdone' : ∀ n ∈ S, n ∉ done ++ [n₀] := by
                intro n hn hc
                rcases List.mem_append.mp hc with hc' | hc'
                · exact hdone n hn hc'
                · simp only [List.mem_singleton] at hc'
                  exact hn₀ (hc' ▸ hn)
              have hnd'' : (rest.map Prod.fst).Nodup := by
                rw [hp2]
                have hsubl : List.Sublist ((l1 ++ l2).map Prod.fst)
                    ((l1 ++ (n₀, p₀) :: l2).map Prod.fst) := by
                  simp only [List.map_append, List.map_cons]
                  exact (List.Sublist.refl _).append (List.sublist_cons_self _ _)
                exact ((hp1 ▸ hnd : ((l1 ++ (n₀, p₀) :: l2).map Prod.fst).Nodup)).sublist hsubl
              exact ih rest (done ++ [n₀]) S hS hclosed' hdone' hnd'' res

theorem list_exists_min_image (f : String → Nat) :
    ∀ (l : List String), l ≠ [] → ∃ a, a ∈ l ∧ ∀ b ∈ l, f a ≤ f b := by
  intro l
  induction l with
  | nil => intro h; exact absurd rfl h
  | cons x tl ih =>
      intro _
      cases tl with
      | nil => exact ⟨x, by simp, by simp⟩
      | cons y tl' =>
          obtain ⟨m, hm, hmin⟩ := ih (by simp)
          by_cases h : f x ≤ f m
          · refine ⟨x, by simp, ?_⟩
            intro b hb
            rcases List.mem_cons.mp hb with rfl | hb'
            · exact le_refl _
            · exact le_trans h (hmin b hb')
          · refine ⟨m, by simp [hm], ?_⟩
            intro b hb
            rcases List.mem_cons.mp hb with rfl | hb'
            · omega
            · exact hmin b hb'

theorem sortLoop_ok_of_rank (rank : String → Nat) : ∀ (fuel : Nat)
    (pending : List (String × Option String)) (done : List String),
    pending.length ≤ fuel →
    (∀ n p, (n, some p) ∈ pending → p ∈ done ∨ p ∈ pending.map Prod.fst) →
    (∀ n p, (n, some p) ∈ pending → rank p < rank n) →
    ∃ res, sortLoop fuel pending done = Except.ok res := by
  intro fuel
  induction fuel with
  | zero =>
      intro pending done hlen _ _
      cases pending with
      | nil => exact ⟨done, rfl⟩
      | cons e tl => simp at hlen
  | succ fuel ih =>
      intro pending done hlen hpar hrank
      cases pending with
      | nil => exact ⟨done, rfl⟩
      | cons e tl =>
          have hex : ∃ en ∈ (e :: tl), ready done en.2 = true := by
            obtain ⟨m, hm, hmin⟩ :=
              list_exists_min_image rank ((e :: tl).map Prod.fst) (by simp)
            obtain ⟨en, hen, hfst⟩ := List.mem_map.mp hm
            obtain ⟨n₁, p₁⟩ := en
            have hfst' : n₁ = m := hfst
            cases p₁ with
            | none => exact ⟨(n₁, none), hen, by simp [ready]⟩
            | some q =>
                rcases hpar n₁ q hen with hq | hq
                · exact ⟨(n₁, some q), hen, by simp [ready, hq]⟩
                · exfalso
                  have h1 : rank q < rank n₁ := hrank n₁ q hen
                  have h2 : rank m ≤ rank q := hmin q hq
                  rw [hfst'] at h1
                  omega
          have hs := findReady_isSome done (e :: tl) hex
          cases hf : findReady done (e :: tl) with
          | none => rw [hf] at hs; simp at hs
          | some r =>
              obtain ⟨n₀, rest⟩ := r
              obtain ⟨p₀, l1, l2, hp1, hp2, _, _⟩ :=
                findReady_eq_some done (e :: tl) rest n₀ hf
              have hlen' : rest.length ≤ fuel := by
                have e1 : (e :: tl).length = l1.length + (l2.length + 1) := by
                  rw [hp1]; simp
                have e2 : rest.length = l1.length + l2.length := by
                  rw [hp2]; simp
                simp only [List.length_cons] at hlen e1
                omega
              have hpar' : ∀ n p, (n, some p) ∈ rest →
                  p ∈ (done ++ [n₀]) ∨ p ∈ rest.map Prod.fst := by
                intro n p hm
                have hm' : (n, some p) ∈ e :: tl := by
                  rw [hp1]
                  exact mem_of_mem_middle (hp2 ▸ hm)
                rcases hpar n p hm' with h' | h'
                · exact Or.inl (by simp [h'])
                · by_cases hpn : p = n₀
                  · exact Or.inl (by simp [hpn])
                  · right
                    rw [hp1] at h'
                    rw [hp2]
                    simp only [List.map_append, List.map_cons] at h' ⊢
                    exact mem_middle_of_ne h' hpn
              have hrank' : ∀ n p, (n, some p) ∈ rest → rank p < rank n := by
                intro n p hm
                refine hrank n p ?_
                rw [hp1]
                exact mem_of_mem_middle (hp2 ▸ hm)
              obtain ⟨res, hres⟩ := ih rest (done ++ [n₀]) hlen' hpar' hrank'
              exact ⟨res, by rw [sortLoop, hf]; exact hres⟩

-- Wrappers at the `pseudoTopSort` interface.
theorem pseudoTopSort_ok_elim {tl : List (String × Option String)} {order : List String}
    (h : pseudoTopSort tl = Except.ok order) :
    sortLoop tl.length tl [] = Except.ok order ∧
    (∀ n p, (n, some p) ∈ tl → p ∈ tl.map Prod.fst) := by
  unfold pseudoTopSort at h
  by_cases hc : tl.all
      (fun e => match e.2 with
        | none => true
        | some q => decide (q ∈ tl.map Prod.fst)) = true
  · rw [if_pos hc] at h
    refine ⟨h, ?_⟩
    intro n p hm
    have := List.all_eq_true.mp hc (n, some p) hm
    simpa using this
  · rw [if_neg hc] at h
    simp at h

theorem pseudoTopSort_perm {tl : List (String × Option String)} {order : List String}
    (h : pseudoTopSort tl = Except.ok order) : order.Perm (tl.map Prod.fst) := by
  obtain ⟨hs, _⟩ := pseudoTopSort_ok_elim h
  obtain ⟨tail, h1, h2⟩ := sortLoop_ok_shape _ _ _ _ hs
  simp only [List.nil_append] at h1
  rw [h1]
  exact h2

theorem pseudoTopSort_parent_index {tl : List (String × Option String)} {order : List String}
    (h : pseudoTopSort tl = Except.ok order) (hnd : (tl.map Prod.fst).Nodup) :
    ∀ n p, (n, some p) ∈ tl → order.indexOf p < order.indexOf n := by
  obtain ⟨hs, hpar⟩ := pseudoTopSort_ok_elim h
  intro n p hm
  exact sortLoop_parent_index _ _ _ _ hs (by simpa using hnd) n p hm (Or.inr (hpar n p hm))

theorem pseudoTopSort_sibling {tl : List (String × Option String)} {order : List String}
    (h : pseudoTopSort tl = Except.ok order) (hnd : (tl.map Prod.fst).Nodup) :
    ∀ n1 n2 p, List.Sublist [(n1, p), (n2, p)] tl →
      order.indexOf n1 < order.indexOf n2 := by
  obtain ⟨hs, _⟩ := pseudoTopSort_ok_elim h
  intro n1 n2 p hsub
  exact sortLoop_sibling _ _ _ _ hs (by simpa using hnd) n1 n2 p hsub

theorem pseudoTopSort_missing {tl : List (String × Option String)} {n : String} {p : String}
    (hm : (n, some p) ∈ tl) (hp : p ∉ tl.map Prod.fst) :
    pseudoTopSort tl = Except.error "missing parentType" := by
  unfold pseudoTopSort
  rw [if_neg]
  intro hall
  have h2 := List.all_eq_true.mp hall (n, some p) hm
  exact hp (of_decide_eq_true h2)

theorem pseudoTopSort_error_of_cycle {tl : List (String × Option String)}
    (hnd : (tl.map Prod.fst).Nodup) (S : List String) (hS : S ≠ [])
    (hclosed : ∀ n ∈ S, ∃ p, p ∈ S ∧ (n, some p) ∈ tl) :
    ∃ msg, pseudoTopSort tl = Except.error msg := by
  unfold pseudoTopSort
  by_cases hc : tl.all
      (fun e => match e.2 with
        | none => true
        | some q => decide (q ∈ tl.map Prod.fst)) = true
  · rw [if_pos hc]
    cases hres : sortLoop tl.length tl [] with
    | error msg => exact ⟨msg, rfl⟩
    | ok res =>
        exact absurd hres
          (sortLoop_cycle tl.length tl [] S hS hclosed (by simp) hnd res)
  · rw [if_neg hc]
    exact ⟨_, rfl⟩

theorem pseudoTopSort_ok_of_rank (tl : List (String × Option String)) (rank : String → Nat)
    (hpar : ∀ n p, (n, some p) ∈ tl → p ∈ tl.map Prod.fst)
    (hrank : ∀ n p, (n, some p) ∈ tl → rank p < rank n) :
    ∃ order, pseudoTopSort tl = Except.ok order := by
  unfold pseudoTopSort
  have hc : tl.all
      (fun e => match e.2 with
        | none => true
        | some q => decide (q ∈ tl.map Prod.fst)) = true := by
    apply List.all_eq_true.mpr
    rintro ⟨n, p⟩ hm
    cases p with
    | none => simp
    | some q => simpa using hpar n q hm
  rw [if_pos hc]
  exact sortLoop_ok_of_rank rank tl.length tl [] (le_refl _)
    (fun n p hm => Or.inr (hpar n p hm)) hrank

-- Lookup of one type in a successfully built registry.
theorem buildRegistry_ok_elim {ds : List (String × JVal)} {dd : JVal}
    {reg : List (String × JVal)} (h : buildRegistry ds dd = Except.ok reg) :
    ∃ order, pseudoTopSort (ds.map (fun e => (e.1, parentTypeOf e.2))) = Except.ok order ∧
      reg = order.foldl (registerOne ds (effectiveDefaults dd)) [] := by
  unfold buildRegistry at h
  cases hp : pseudoTopSort (ds.map (fun e => (e.1, parentTypeOf e.2))) with
  | error msg => rw [hp] at h; simp [Except.map] at h
  | ok order =>
      rw [hp] at h
      simp only [Except.map, Except.ok.injEq] at h
      exact ⟨order, rfl, h.symm⟩

theorem lookup_foldl_isSome (ds : List (String × JVal)) (ed : JVal)
    (l : List String) (t : String) (hnd : l.Nodup) (ht : t ∈ l)
    (raw : JVal) (hraw : lookupKey ds t = some raw) :
    ∃ v, lookupKey (l.foldl (registerOne ds ed) []) t = some v := by
  obtain ⟨m1, m2, rfl⟩ := List.append_of_mem ht
  obtain ⟨h1', h2', hdisj⟩ := List.nodup_append.mp hnd
  have hnotin1 : t ∉ m1 := fun hc => (List.disjoint_left.mp hdisj hc) (by simp)
  have hnotin2 : t ∉ m2 := (List.nodup_cons.mp h2').1
  exact ⟨_, lookup_foldl_register ds ed m1 m2 t raw hnotin1 hnotin2 hraw⟩

/-- In a successfully built registry with unique type names, every
declared type is stored under its merged description, computed against
the store `pre` as of its registration step; `pre` values persist into
the final store, and the declared parent (if any) was already registered
in `pre`. -/
theorem lookup_buildRegistry {ds : List (String × JVal)} {dd : JVal}
    {reg : List (String × JVal)}
    (hok : buildRegistry ds dd = Except.ok reg)
    (hnd : (ds.map Prod.fst).Nodup)
    {T : String} {dT : JVal} (hT : lookupKey ds T = some dT) :
    ∃ l1 : List String,
      lookupKey reg T =
        some (mergedDescription (effectiveDefaults dd)
          (l1.foldl (registerOne ds (effectiveDefaults dd)) []) dT) ∧
      (∀ t v, lookupKey (l1.foldl (registerOne ds (effectiveDefaults dd)) []) t = some v →
        lookupKey reg t = some v) ∧
      (∀ P, parentTypeOf dT = some P →
        ∃ vP, lookupKey (l1.foldl (registerOne ds (effectiveDefaults dd)) []) P = some vP) ∧
      l1.Nodup := by
  obtain ⟨order, horder, hreg⟩ := buildRegistry_ok_elim hok
  have hnames : (ds.map (fun e => (e.1, parentTypeOf e.2))).map Prod.fst = ds.map Prod.fst := by
    simp
  have hperm : order.Perm (ds.map Prod.fst) := by
    have := pseudoTopSort_perm horder
    rwa [hnames] at this
  have hndo : order.Nodup := hperm.symm.nodup hnd
  have hTmem : T ∈ order := hperm.mem_iff.mpr (by
    have := mem_keys_of_lookupKey_some hT
    simpa [keys] using this)
  obtain ⟨l1, l2, hsplit⟩ := List.append_of_mem hTmem
  obtain ⟨hnd1, hnd2, hdisj⟩ := List.nodup_append.mp (hsplit ▸ hndo)
  have hnotin1 : T ∉ l1 := fun hc => (List.disjoint_left.mp hdisj hc) (by simp)
  have hnotin2 : T ∉ l2 := (List.nodup_cons.mp hnd2).1
  refine ⟨l1, ?_, ?_, ?_, hnd1⟩
  · rw [hreg, hsplit]
    exact lookup_foldl_register ds (effectiveDefaults dd) l1 l2 T dT hnotin1 hnotin2 hT
  · intro t v hv
    rw [hreg, hsplit, List.foldl_append]
    exact lookup_foldl_some ds (effectiveDefaults dd) (T :: l2) _ t v hv
  · intro P hP
    have hTds : (T, dT) ∈ ds := lookupKey_some_mem hT
    have hparsed : (T, some P) ∈ ds.map (fun e => (e.1, parentTypeOf e.2)) := by
      have h0 := List.mem_map_of_mem (fun (e : String × JVal) => (e.1, parentTypeOf e.2)) hTds
      simpa [hP] using h0
    have hndp : ((ds.map (fun e => (e.1, parentTypeOf e.2))).map Prod.fst).Nodup := by
      rw [hnames]; exact hnd
    have hidx : order.indexOf P < order.indexOf T :=
      pseudoTopSort_parent_index horder hndp T P hparsed
    have hPnames : P ∈ ds.map Prod.fst := by
      have := (pseudoTopSort_ok_elim horder).2 T P hparsed
      rwa [hnames] at this
    have hidxT : order.indexOf T = l1.length := by
      rw [hsplit, List.indexOf_append_of_not_mem hnotin1, List.indexOf_cons_self]
      omega
    have hPl1 : P ∈ l1 := by
      by_contra hc
      have hge : order.indexOf P = l1.length + (T :: l2).indexOf P := by
        rw [hsplit, List.indexOf_append_of_not_mem hc]
      omega
    obtain ⟨rawP, hrawP⟩ := lookupKey_isSome_of_mem (by simpa [keys] using hPnames)
    exact lookup_foldl_isSome ds (effectiveDefaults dd) l1 P hnd1 hPl1 rawP hrawP

theorem parsed_names (ds : List (String × JVal)) :
    (ds.map (fun e => (e.1, parentTypeOf e.2))).map Prod.fst = ds.map Prod.fst := by
  simp

theorem get_nonObj {x : JVal} (h : x.isObj = false) (k : String) : x.get k = JVal.undef := by
  cases x <;> simp_all [JVal.isObj, JVal.get]

theorem mergeDeep_get_child_none {lP lT : List (String × JVal)} {k : String}
    (h : lookupKey lT k = none) :
    (mergeDeep (JVal.obj lP) (JVal.obj lT)).get k = (JVal.obj lP).get k := by
  rw [mergeDeep_obj_obj]
  simp only [JVal.get]
  rw [mergeListWith_lookup_none mergeDeep lT k h lP]

/-- Value of the deep merge at a key only the child declares. -/
theorem mergeDeep_get_child_new {lP lT : List (String × JVal)} {k : String} {w : JVal}
    (hnd : KeysNodup lT) (h : lookupKey lT k = some w)
    (hp : lookupKey lP k = none) :
    (mergeDeep (JVal.obj lP) (JVal.obj lT)).get k = w := by
  rw [mergeDeep_obj_obj]
  simp only [JVal.get]
  rw [mergeListWith_lookup_new mergeDeep lT k w hnd h lP hp]
  rfl

/-- Value of the deep merge at a key both sides declare. -/
theorem mergeDeep_get_child_both {lP lT : List (String × JVal)} {k : String} {v w : JVal}
    (hnd : KeysNodup lT) (h : lookupKey lT k = some w)
    (hp : lookupKey lP k = some v) :
    (mergeDeep (JVal.obj lP) (JVal.obj lT)).get k = mergeDeep v w := by
  rw [mergeDeep_obj_obj]
  simp only [JVal.get]
  rw [mergeListWith_lookup_both mergeDeep lT k v w hnd h lP hp]
  rfl

/-! ## Claim theorems -/
/-- C1: For every type T registered with a parentType P,
`registry.labelMappers(T)` equals exactly T's own declared labelMappers
(absent if T declared none), even when P's merged description declares
labelMappers: labelMappers is never inherited from the parent. -/
theorem c1_labelMappers_not_inherited
    (ds : List (String × JVal)) (dd : JVal) (reg : List (String × JVal))
    (T P : String) (dT : JVal)
    (hok : buildRegistry ds dd = Except.ok reg)
    (hnd : (ds.map Prod.fst).Nodup)
    (hT : lookupKey ds T = some dT)
    (hP : parentTypeOf dT = some P) :
    labelMappers reg T = Except.ok (optOfVal (dT.get "labelMappers")) := by
  obtain ⟨l1, hlook, _, _, _⟩ := lookup_buildRegistry hok hnd hT
  have hmobj : (mergedDescription (effectiveDefaults dd)
      (l1.foldl (registerOne ds (effectiveDefaults dd)) []) dT).isObj = true :=
    mergedDescription_isObj _ _ _ (parentTypeOf_some_isObj hP)
  have hmerged :
      (mergedDescription (effectiveDefaults dd)
        (l1.foldl (registerOne ds (effectiveDefaults dd)) []) dT).get "labelMappers" =
      dT.get "labelMappers" := by
    unfold mergedDescription
    rw [hP]
    exact get_set_self _ (mergeDeep_isObj_right _ _ (parentTypeOf_some_isObj hP)) _ _
  show doGet "labelMappers" reg T = Except.ok (optOfVal (dT.get "labelMappers"))
  rw [doGet_registered hlook hmobj "labelMappers", hmerged]

theorem c1_witness :
    buildRegistry c1ds (JVal.obj []) = Except.ok c1reg ∧
    (c1ds.map Prod.fst).Nodup ∧
    lookupKey c1ds "T" = some (JVal.obj [("parentType", JVal.s "P")]) ∧
    parentTypeOf (JVal.obj [("parentType", JVal.s "P")]) = some "P" ∧
    labelMappers c1reg "T" =
      Except.ok (optOfVal ((JVal.obj [("parentType", JVal.s "P")]).get "labelMappers")) :=
  ⟨by decide, by decide, by decide, by decide,
    c1_labelMappers_not_inherited c1ds (JVal.obj []) c1reg "T" "P"
      (JVal.obj [("parentType", JVal.s "P")]) (by decide) (by decide) (by decide) (by decide)⟩

/-- C3: The deep merge used for registry construction combines two
values at the same key as follows: if both are mapping-like, they are
merged recursively key-by-key with the child's key winning on conflict
and keys from both sides otherwise preserved; if either value is a
scalar, a list, or a function, the child value replaces the parent value
entirely (no element-wise list merging or splicing). -/
theorem c3_mergeDeep_semantics (x y : JVal) :
    (x.isObj = false ∨ y.isObj = false → mergeDeep x y = y) ∧
    (∀ a b, x = JVal.obj a → y = JVal.obj b → KeysNodup b → ∀ k,
      (mergeDeep x y).get k =
        match lookupKey b k with
        | none => x.get k
        | some w =>
          match lookupKey a k with
          | none => w
          | some v => mergeDeep v w) := by
  constructor
  · exact mergeDeep_replace x y
  · rintro a b rfl rfl hb k
    rw [mergeDeep_obj_obj]
    cases hbk : lookupKey b k with
    | none =>
        simp only [JVal.get]
        rw [mergeListWith_lookup_none mergeDeep b k hbk a]
    | some w =>
        cases hak : lookupKey a k with
        | none =>
            show (lookupKey (mergeListWith mergeDeep a b) k).getD JVal.undef = w
            rw [mergeListWith_lookup_new mergeDeep b k w hb hbk a hak]
            rfl
        | some v =>
            show (lookupKey (mergeListWith mergeDeep a b) k).getD JVal.undef = mergeDeep v w
            rw [mergeListWith_lookup_both mergeDeep b k v w hb hbk a hak]
            rfl

theorem c3_witness :
    ((JVal.arr [JVal.num 1, JVal.num 2, JVal.num 3]).isObj = false ∨
      (JVal.arr [JVal.num 9]).isObj = false) ∧
    mergeDeep (JVal.arr [JVal.num 1, JVal.num 2, JVal.num 3]) (JVal.arr [JVal.num 9]) =
      JVal.arr [JVal.num 9] ∧
    KeysNodup [("q", JVal.num 3), ("r", JVal.num 4)] ∧
    (mergeDeep (JVal.obj [("p", JVal.num 1), ("q", JVal.num 2)])
        (JVal.obj [("q", JVal.num 3), ("r", JVal.num 4)])).get "q" = JVal.num 3 := by
  refine ⟨Or.inl (by decide), ?_, by decide, ?_⟩
  · exact (c3_mergeDeep_semantics (JVal.arr [JVal.num 1, JVal.num 2, JVal.num 3])
      (JVal.arr [JVal.num 9])).1 (Or.inl (by decide))
  · have h := (c3_mergeDeep_semantics (JVal.obj [("p", JVal.num 1), ("q", JVal.num 2)])
      (JVal.obj [("q", JVal.num 3), ("r", JVal.num 4)])).2
      [("p", JVal.num 1), ("q", JVal.num 2)] [("q", JVal.num 3), ("r", JVal.num 4)]
      rfl rfl (by decide) "q"
    exact h.trans (by decide)

/-- C6: The claimed contract — `hasType` returns false for unknown
names and `type` plus every per-field getter return the absent value,
never an exception, when the type or field is unset — fails in the code
on Object.prototype property names.  With a registry whose only
registered type is "T": `hasType` on "toString" returns true although no
such type is registered (the `in` operator finds the inherited
property), and `type`, the per-field getters and `urlTemplates` on
"toString" throw a TypeError (the inherited value has no `toJS` or `get`
method) instead of returning the absent value.  On names not found on
the prototype chain the contract does hold: "unknown" gives false and
the absent value, and "T" gives its merged fields. -/
theorem c6_prototype_leak :
    buildRegistry c6ds (JVal.obj []) = Except.ok c6reg ∧
    typeNames c6reg = ["T"] ∧
    lookupKey c6reg "toString" = none ∧
    (hasType c6reg "toString" = true ∧
      typeAccessor c6reg "toString" =
        Except.error "TypeError: it.toJS is not a function" ∧
      info c6reg "toString" = Except.error "TypeError: it.get is not a function" ∧
      labelMappers c6reg "toString" =
        Except.error "TypeError: it.get is not a function" ∧
      dbAdapter c6reg "toString" =
        Except.error "TypeError: it.get is not a function" ∧
      urlTemplates c6reg "toString" =
        Except.error "TypeError: it.get is not a function") ∧
    (hasType c6reg "unknown" = false ∧ typeAccessor c6reg "unknown" = Except.ok none ∧
      info c6reg "unknown" = Except.ok none ∧
      labelMappers c6reg "unknown" = Except.ok none ∧
      urlTemplates c6reg "unknown" = Except.ok none) ∧
    (hasType c6reg "T" = true ∧
      info c6reg "T" = Except.ok (some (JVal.obj [("description", JVal.s "d")])) ∧
      labelMappers c6reg "T" = Except.ok none) := by
  decide

/-- C2 counterexample: the stored merged description of T is NOT the
parent's merged description deep-merged with T's raw description: the
registration step afterwards resets `labelMappers`, so when P declares
labelMappers and T does not, the two differ. -/
theorem c2_counterexample :
    buildRegistry c2ds (JVal.obj []) = Except.ok [("P", c2vP), ("T", c2vT)] ∧
    c2vT ≠ mergeDeep c2vP (JVal.obj [("parentType", JVal.s "P")]) := by
  constructor <;> decide

/-- C2 (amended): For every type T with parentType P, T's merged
description is the already-merged description of P deep-merged with T's
own raw description, EXCEPT that afterwards `labelMappers` is reset to
exactly T's own raw labelMappers.  In particular, every top-level field
other than labelMappers that T's raw description does not declare is
inherited from P's merged description, and within `info`, every field of
P's merged info that T's raw info does not declare is preserved while
T's own (non-mapping) info values win on conflict. -/
theorem c2_amended_inheritance
    (ds : List (String × JVal)) (dd : JVal) (reg : List (String × JVal))
    (T P : String) (dT : JVal) (lT : List (String × JVal))
    (hok : buildRegistry ds dd = Except.ok reg)
    (hnd : (ds.map Prod.fst).Nodup)
    (hobjs : ∀ e ∈ ds, (e.2 : JVal).isObj = true)
    (hT : lookupKey ds T = some dT)
    (hlT : dT = JVal.obj lT)
    (hP : parentTypeOf dT = some P) :
    ∃ vP, lookupKey reg P = some vP ∧ vP.isObj = true ∧
      lookupKey reg T =
        some ((mergeDeep vP dT).set "labelMappers" (dT.get "labelMappers")) ∧
      (∀ k, k ≠ "labelMappers" → lookupKey lT k = none →
        ((mergeDeep vP dT).set "labelMappers" (dT.get "labelMappers")).get k = vP.get k) ∧
      (KeysNodup lT → ∀ linfo k, lookupKey lT "info" = some (JVal.obj linfo) →
        lookupKey linfo k = none →
        (((mergeDeep vP dT).set "labelMappers" (dT.get "labelMappers")).get "info").get k =
          (vP.get "info").get k) ∧
      (KeysNodup lT → ∀ linfo k w, lookupKey lT "info" = some (JVal.obj linfo) →
        KeysNodup linfo → lookupKey linfo k = some w → w.isObj = false →
        (((mergeDeep vP dT).set "labelMappers" (dT.get "labelMappers")).get "info").get k
          = w) := by
  obtain ⟨l1, hlook, hpres, hpar, hndl1⟩ := lookup_buildRegistry hok hnd hT
  obtain ⟨vP, hvP⟩ := hpar P hP
  have hvPreg : lookupKey reg P = some vP := hpres P vP hvP
  have hvPobj : vP.isObj = true :=
    foldl_register_values_obj ds (effectiveDefaults dd) hobjs l1 [] (by simp)
      (P, vP) (lookupKey_some_mem hvP)
  obtain ⟨lP, hlP⟩ := (isObj_eq_true_iff vP).mp hvPobj
  have hmd : mergedDescription (effectiveDefaults dd)
      (l1.foldl (registerOne ds (effectiveDefaults dd)) []) dT =
      (mergeDeep vP dT).set "labelMappers" (dT.get "labelMappers") := by
    unfold mergedDescription
    rw [hP]
    simp only [hvP, Option.getD_some]
  have hlm : ("info" : String) ≠ "labelMappers" := by decide
  have hsetinfo :
      ((mergeDeep vP dT).set "labelMappers" (dT.get "labelMappers")).get "info" =
      (mergeDeep vP dT).get "info" := get_set_other _ _ _ _ hlm
  refine ⟨vP, hvPreg, hvPobj, by rw [hlook, hmd], ?_, ?_, ?_⟩
  · intro k hk hnone
    rw [get_set_other _ _ _ _ hk, hlT, hlP]
    rw [mergeDeep_get_child_none hnone]
  · intro hndT linfo k hinfo hnone
    rw [hsetinfo, hlT, hlP]
    cases hp : lookupKey lP "info" with
    | none =>
        rw [mergeDeep_get_child_new hndT hinfo hp]
        simp [JVal.get, hp, hnone]
    | some w =>
        rw [mergeDeep_get_child_both hndT hinfo hp]
        have hrhs : (JVal.obj lP).get "info" = w := by simp [JVal.get, hp]
        rw [hrhs]
        cases hw : w.isObj with
        | false =>
            rw [mergeDeep_replace _ _ (Or.inl hw), get_nonObj hw]
            simp [JVal.get, hnone]
        | true =>
            obtain ⟨lw, rfl⟩ := (isObj_eq_true_iff w).mp hw
            rw [mergeDeep_get_child_none hnone]
  · intro hndT linfo k w hinfo hndinfo hkey hw
    rw [hsetinfo, hlT, hlP]
    cases hp : lookupKey lP "info" with
    | none =>
        rw [mergeDeep_get_child_new hndT hinfo hp]
        simp [JVal.get, hkey]
    | some u =>
        rw [mergeDeep_get_child_both hndT hinfo hp]
        cases hu : u.isObj with
        | false =>
            rw [mergeDeep_replace _ _ (Or.inl hu)]
            simp [JVal.get, hkey]
        | true =>
            obtain ⟨lu, rfl⟩ := (isObj_eq_true_iff u).mp hu
            cases hq : lookupKey lu k with
            | none => rw [mergeDeep_get_child_new hndinfo hkey hq]
            | some v =>
                rw [mergeDeep_get_child_both hndinfo hkey hq]
                exact mergeDeep_replace v w (Or.inr hw)

theorem c2_witness :
    buildRegistry c2amds (JVal.obj []) = Except.ok c2amreg ∧
    (∃ vP, lookupKey c2amreg "P" = some vP ∧ vP.isObj = true ∧
      lookupKey c2amreg "T" =
        some ((mergeDeep vP c2amDT).set "labelMappers" (c2amDT.get "labelMappers")) ∧
      ((mergeDeep vP c2amDT).set "labelMappers" (c2amDT.get "labelMappers")).get
        "defaultIncludes" = vP.get "defaultIncludes" ∧
      (((mergeDeep vP c2amDT).set "labelMappers" (c2amDT.get "labelMappers")).get
        "info").get "example" = (vP.get "info").get "example" ∧
      (((mergeDeep vP c2amDT).set "labelMappers" (c2amDT.get "labelMappers")).get
        "info").get "description" = JVal.s "child") := by
  refine ⟨by decide, ?_⟩
  obtain ⟨vP, h1, h2, h3, h4, h5, h6⟩ :=
    c2_amended_inheritance c2amds (JVal.obj []) c2amreg "T" "P" c2amDT
      [("parentType", JVal.s "P"), ("info", JVal.obj [("description", JVal.s "child")])]
      (by decide) (by decide)
      (by intro e he
          rcases List.mem_cons.mp he with rfl | he'
          · decide
          · rcases List.mem_cons.mp he' with rfl | he''
            · decide
            · cases he'')
      (by decide) (by decide) (by decide)
  refine ⟨vP, h1, h2, h3, ?_, ?_, ?_⟩
  · exact h4 "defaultIncludes" (by decide) (by decide)
  · exact h5 (by decide) [("description", JVal.s "child")] "example" (by decide) (by decide)
  · exact h6 (by decide) [("description", JVal.s "child")] "description" (JVal.s "child")
      (by decide) (by decide) (by decide) (by decide)

/-- C7: Registry construction fails fast with an actionable error
when a non-root type's declared parentType is absent from the set of
registered type names, and detects a cyclic parentType chain (a
nonempty set of nodes each of whose parents lies in the set) reporting
an error rather than looping; in either case initialization aborts and
no registry is produced. -/
theorem c7_construction_fails (ds : List (String × JVal)) (dd : JVal) :
    ((∃ t d p, (t, d) ∈ ds ∧ parentTypeOf d = some p ∧ p ∉ ds.map Prod.fst) →
      ∃ msg, buildRegistry ds dd = Except.error msg) ∧
    ((ds.map Prod.fst).Nodup →
      (∃ S : List String, S ≠ [] ∧
        ∀ n ∈ S, ∃ p, p ∈ S ∧ ∃ d, (n, d) ∈ ds ∧ parentTypeOf d = some p) →
      ∃ msg, buildRegistry ds dd = Except.error msg) := by
  constructor
  · rintro ⟨t, d, p, hmem, hpar, hnot⟩
    have hparsed : (t, some p) ∈ ds.map (fun e => (e.1, parentTypeOf e.2)) := by
      have h0 := List.mem_map_of_mem (fun (e : String × JVal) => (e.1, parentTypeOf e.2)) hmem
      simpa [hpar] using h0
    have hnot' : p ∉ (ds.map (fun e => (e.1, parentTypeOf e.2))).map Prod.fst := by
      rw [parsed_names]; exact hnot
    have herr := pseudoTopSort_missing hparsed hnot'
    refine ⟨"missing parentType", ?_⟩
    unfold buildRegistry
    rw [herr]
    rfl
  · rintro hnd ⟨S, hS, hclosed⟩
    have hndp : ((ds.map (fun e => (e.1, parentTypeOf e.2))).map Prod.fst).Nodup := by
      rw [parsed_names]; exact hnd
    have hclosed' : ∀ n ∈ S, ∃ p, p ∈ S ∧
        (n, some p) ∈ ds.map (fun e => (e.1, parentTypeOf e.2)) := by
      intro n hn
      obtain ⟨p, hpS, d, hmem, hpar⟩ := hclosed n hn
      refine ⟨p, hpS, ?_⟩
      have h0 := List.mem_map_of_mem (fun (e : String × JVal) => (e.1, parentTypeOf e.2)) hmem
      simpa [hpar] using h0
    obtain ⟨msg, herr⟩ := pseudoTopSort_error_of_cycle hndp S hS hclosed'
    refine ⟨msg, ?_⟩
    unfold buildRegistry
    rw [herr]
    rfl

theorem c7_witness :
    (∃ msg, buildRegistry c7missds (JVal.obj []) = Except.error msg) ∧
    (∃ msg, buildRegistry c7cycds (JVal.obj []) = Except.error msg) :=
  ⟨(c7_construction_fails c7missds (JVal.obj [])).1
      ⟨"A", JVal.obj [("parentType", JVal.s "Z")], "Z", by decide, by decide, by decide⟩,
   (c7_construction_fails c7cycds (JVal.obj [])).2 (by decide)
      ⟨["A", "B"], by decide, fun n hn => by
        rcases List.mem_cons.mp hn with rfl | hn'
        · exact ⟨"B", by decide, JVal.obj [("parentType", JVal.s "B")], by decide, by decide⟩
        · rcases List.mem_cons.mp hn' with rfl | hn''
          · exact ⟨"A", by decide, JVal.obj [("parentType", JVal.s "A")], by decide, by decide⟩
          · cases hn''⟩⟩

/-- C8: For every type-description map whose parentType references
form a tree (each non-root parentType resolves to a registered node, and
the parent pointers are acyclic, witnessed by a rank function that
decreases from child to parent), the registration order produced before
merging places each node at an index strictly greater than its parent's
index; the order is a permutation of the input names, is deterministic
(it is a pure function of the input list), and ties among siblings
preserve input order. -/
theorem c8_registration_order (ds : List (String × JVal)) (rank : String → Nat)
    (hnd : (ds.map Prod.fst).Nodup)
    (hres : ∀ t d p, (t, d) ∈ ds → parentTypeOf d = some p → p ∈ ds.map Prod.fst)
    (hrank : ∀ t d p, (t, d) ∈ ds → parentTypeOf d = some p → rank p < rank t) :
    ∃ order, pseudoTopSort (ds.map (fun e => (e.1, parentTypeOf e.2))) = Except.ok order ∧
      order.Perm (ds.map Prod.fst) ∧
      (∀ t d p, (t, d) ∈ ds → parentTypeOf d = some p →
        order.indexOf p < order.indexOf t) ∧
      (∀ t1 d1 t2 d2 q, List.Sublist [(t1, d1), (t2, d2)] ds →
        parentTypeOf d1 = q → parentTypeOf d2 = q →
        order.indexOf t1 < order.indexOf t2) := by
  have hmem_parsed : ∀ t d p, (t, d) ∈ ds → parentTypeOf d = some p →
      (t, some p) ∈ ds.map (fun e => (e.1, parentTypeOf e.2)) := by
    intro t d p hmem hpar
    have h0 := List.mem_map_of_mem (fun (e : String × JVal) => (e.1, parentTypeOf e.2)) hmem
    simpa [hpar] using h0
  have hp' : ∀ n p, (n, some p) ∈ ds.map (fun e => (e.1, parentTypeOf e.2)) →
      p ∈ (ds.map (fun e => (e.1, parentTypeOf e.2))).map Prod.fst := by
    intro n p hm
    obtain ⟨e, he, heq⟩ := List.mem_map.mp hm
    have h1 : e.1 = n := congrArg Prod.fst heq
    have h2 : parentTypeOf e.2 = some p := congrArg Prod.snd heq
    rw [parsed_names]
    exact hres e.1 e.2 p he h2
  have hr' : ∀ n p, (n, some p) ∈ ds.map (fun e => (e.1, parentTypeOf e.2)) →
      rank p < rank n := by
    intro n p hm
    obtain ⟨e, he, heq⟩ := List.mem_map.mp hm
    have h1 : e.1 = n := congrArg Prod.fst heq
    have h2 : parentTypeOf e.2 = some p := congrArg Prod.snd heq
    rw [← h1]
    exact hrank e.1 e.2 p he h2
  obtain ⟨order, horder⟩ :=
    pseudoTopSort_ok_of_rank (ds.map (fun e => (e.1, parentTypeOf e.2))) rank hp' hr'
  have hndp : ((ds.map (fun e => (e.1, parentTypeOf e.2))).map Prod.fst).Nodup := by
    rw [parsed_names]; exact hnd
  refine ⟨order, horder, ?_, ?_, ?_⟩
  · have := pseudoTopSort_perm horder
    rwa [parsed_names] at this
  · intro t d p hmem hpar
    exact pseudoTopSort_parent_index horder hndp t p (hmem_parsed t d p hmem hpar)
  · intro t1 d1 t2 d2 q hsub hq1 hq2
    have hsub' : List.Sublist [(t1, q), (t2, q)]
        (ds.map (fun e => (e.1, parentTypeOf e.2))) := by
      have := hsub.map (fun (e : String × JVal) => (e.1, parentTypeOf e.2))
      simpa [hq1, hq2] using this
    exact pseudoTopSort_sibling horder hndp t1 t2 q hsub'

theorem c8_witness :
    (c8ds.map Prod.fst).Nodup ∧
    (∃ order,
      pseudoTopSort (c8ds.map (fun e => (e.1, parentTypeOf e.2))) = Except.ok order ∧
      order.Perm (c8ds.map Prod.fst) ∧
      (∀ t d p, (t, d) ∈ c8ds → parentTypeOf d = some p →
        order.indexOf p < order.indexOf t) ∧
      (∀ t1 d1 t2 d2 q, List.Sublist [(t1, d1), (t2, d2)] c8ds →
        parentTypeOf d1 = q → parentTypeOf d2 = q →
        order.indexOf t1 < order.indexOf t2)) := by
  refine ⟨by decide, ?_⟩
  refine c8_registration_order c8ds c8rank (by decide) ?_ ?_
  · intro t d p hmem hpar
    rcases List.mem_cons.mp hmem with h | h
    · rw [show d = JVal.obj [] from congrArg Prod.snd h] at hpar
      simp [parentTypeOf, JVal.get, lookupKey] at hpar
    · rcases List.mem_cons.mp h with h' | h'
      · rw [show d = JVal.obj [("parentType", JVal.s "R")] from congrArg Prod.snd h'] at hpar
        have : p = "R" := by
          simpa [parentTypeOf, JVal.get, lookupKey] using hpar.symm
        rw [this]
        decide
      · rcases List.mem_cons.mp h' with h'' | h''
        · rw [show d = JVal.obj [("parentType", JVal.s "R")] from congrArg Prod.snd h''] at hpar
          have : p = "R" := by
            simpa [parentTypeOf, JVal.get, lookupKey] using hpar.symm
          rw [this]
          decide
        · cases h''
  · intro t d p hmem hpar
    rcases List.mem_cons.mp hmem with h | h
    · rw [show d = JVal.obj [] from congrArg Prod.snd h] at hpar
      simp [parentTypeOf, JVal.get, lookupKey] at hpar
    · rcases List.mem_cons.mp h with h' | h'
      · have ht : t = "B" := congrArg Prod.fst h'
        rw [show d = JVal.obj [("parentType", JVal.s "R")] from congrArg Prod.snd h'] at hpar
        have hp : p = "R" := by
          simpa [parentTypeOf, JVal.get, lookupKey] using hpar.symm
        rw [ht, hp]
        decide
      · rcases List.mem_cons.mp h' with h'' | h''
        · have ht : t = "A" := congrArg Prod.fst h''
          rw [show d = JVal.obj [("parentType", JVal.s "R")] from congrArg Prod.snd h''] at hpar
          have hp : p = "R" := by
            simpa [parentTypeOf, JVal.get, lookupKey] using hpar.symm
          rw [ht, hp]
          decide
        · cases h''

/-- C9: For every type declared with no parentType, its merged
description equals the effective defaults (global defaults deep-merged
with the supplied description defaults) deep-merged with its own raw
description; in particular, registering a type with an empty description
(and an object as the supplied defaults) yields exactly the effective
defaults. -/
theorem c9_root_merge
    (ds : List (String × JVal)) (dd : JVal) (reg : List (String × JVal))
    (T : String) (dT : JVal)
    (hok : buildRegistry ds dd = Except.ok reg)
    (hnd : (ds.map Prod.fst).Nodup)
    (hT : lookupKey ds T = some dT)
    (hroot : parentTypeOf dT = none) :
    lookupKey reg T = some (mergeDeep (effectiveDefaults dd) dT) ∧
    (dT = JVal.obj [] → dd.isObj = true →
      lookupKey reg T = some (effectiveDefaults dd)) := by
  obtain ⟨l1, hlook, _, _, _⟩ := lookup_buildRegistry hok hnd hT
  have hmd : mergedDescription (effectiveDefaults dd)
      (l1.foldl (registerOne ds (effectiveDefaults dd)) []) dT =
      mergeDeep (effectiveDefaults dd) dT := by
    unfold mergedDescription
    rw [hroot]
  have h1 : lookupKey reg T = some (mergeDeep (effectiveDefaults dd) dT) := by
    rw [hlook, hmd]
  refine ⟨h1, ?_⟩
  rintro rfl hdd
  rw [h1]
  have hED : (effectiveDefaults dd).isObj = true :=
    mergeDeep_isObj_right globalResourceDefaults dd hdd
  obtain ⟨l, hl⟩ := (isObj_eq_true_iff _).mp hED
  rw [hl, mergeDeep_obj_nil, ← hl]

theorem c9_witness :
    buildRegistry c9ds c9dd = Except.ok c9reg ∧
    lookupKey c9reg "T" = some (mergeDeep (effectiveDefaults c9dd) (JVal.obj [])) ∧
    lookupKey c9reg "T" = some (effectiveDefaults c9dd) := by
  refine ⟨by decide, ?_, ?_⟩
  · exact (c9_root_merge c9ds c9dd c9reg "T" (JVal.obj [])
      (by decide) (by decide) (by decide) (by decide)).1
  · exact (c9_root_merge c9ds c9dd c9reg "T" (JVal.obj [])
      (by decide) (by decide) (by decide) (by decide)).2 rfl (by decide)

/-- C4: A request whose Content-Type has the vendor JSON media type
is rejected with a 415 "Invalid Media Type Parameter(s)" error if and
only if it carries a parameter other than charset; a charset parameter
and the unparameterized vendor type are both accepted: a valid POST with
charset=utf-8 yields 201, and a valid PATCH with the unparameterized
vendor type yields a status in 200-204 with a defined data field. -/
theorem c4_content_type_params (r : HttpRequest) (ct : MediaType)
    (hct : r.contentType = some ct) (hv : ct.mediaType = JSONAPIMediaType) :
    (((handleRequest r).status = 415 ∧
        ((handleRequest r).errors.headD { title := "" }).title =
          "Invalid Media Type Parameter(s)") ↔
      ct.params.any (fun pr => pr.1 ≠ "charset") = true) ∧
    (r.method = "POST" → r.bodyValid = true → ct.params = [("charset", "utf-8")] →
      (handleRequest r).status = 201) ∧
    (r.method = "PATCH" → r.bodyValid = true → ct.params = [] →
      200 ≤ (handleRequest r).status ∧ (handleRequest r).status ≤ 204 ∧
      (handleRequest r).hasData = true) := by
  have hinv : invalidContentType r.contentType =
      ct.params.any (fun pr => pr.1 ≠ "charset") := by
    rw [hct]
    simp [invalidContentType, hv]
  refine ⟨?_, ?_, ?_⟩
  · cases hb : ct.params.any (fun pr => pr.1 ≠ "charset") with
    | true =>
        rw [hb] at hinv
        simp [handleRequest, hinv]
    | false =>
        rw [hb] at hinv
        simp only [Bool.false_eq_true, iff_false]
        rintro ⟨h1, _⟩
        by_cases hbv : r.bodyValid <;> by_cases hm : r.method = "POST" <;>
          simp [handleRequest, hinv, hbv, hm] at h1
  · intro hm hbv hparams
    have hzero : invalidContentType r.contentType = false := by
      rw [hinv, hparams]
      decide
    simp [handleRequest, hzero, hbv, hm]
  · intro hm hbv hparams
    have hzero : invalidContentType r.contentType = false := by
      rw [hinv, hparams]
      decide
    have hnp : r.method ≠ "POST" := by rw [hm]; decide
    simp [handleRequest, hzero, hbv, hnp]

theorem c4_witness :
    ((handleRequest c4reqBadParam).status = 415 ∧
      ((handleRequest c4reqBadParam).errors.headD { title := "" }).title =
        "Invalid Media Type Parameter(s)") ∧
    (handleRequest c4reqCharset).status = 201 ∧
    (200 ≤ (handleRequest c4reqPatch).status ∧ (handleRequest c4reqPatch).status ≤ 204 ∧
      (handleRequest c4reqPatch).hasData = true) := by
  refine ⟨?_, ?_, ?_⟩
  · exact ((c4_content_type_params c4reqBadParam
      { mediaType := "application/vnd.api+json", params := [("ext", "blah")] }
      (by decide) (by decide)).1).mpr (by decide)
  · exact (c4_content_type_params c4reqCharset
      { mediaType := "application/vnd.api+json", params := [("charset", "utf-8")] }
      (by decide) (by decide)).2.1 (by decide) (by decide) (by decide)
  · exact (c4_content_type_params c4reqPatch
      { mediaType := "application/vnd.api+json", params := [] }
      (by decide) (by decide)).2.2 (by decide) (by decide) (by decide)

/-- C5: Whenever a request's Accept header lists the vendor JSON
media type among the acceptable types (nonzero quality), the response's
Content-Type header is the vendor JSON media type, regardless of the
listed order or quality weights of the alternatives; in particular the
negotiated response type is invariant under permutation of the Accept
list. -/
theorem c5_prefer_vendor_type (r : HttpRequest) (e : AcceptEntry)
    (he : e ∈ r.accept) (hv : e.media = JSONAPIMediaType) (hq : e.q ≠ 0) :
    (handleRequest r).contentType = some JSONAPIMediaType ∧
    (∀ accept2 : List AcceptEntry, accept2.Perm r.accept →
      negotiateResponseType accept2 = some JSONAPIMediaType) := by
  have hva : ∀ accept2 : List AcceptEntry, accept2.Perm r.accept →
      vendorAcceptable accept2 = true := by
    intro a2 hp
    unfold vendorAcceptable
    rw [List.any_eq_true]
    exact ⟨e, hp.mem_iff.mpr he, by simp [hv, hq]⟩
  constructor
  · unfold handleRequest
    by_cases h1 : invalidContentType r.contentType = true
    · simp [h1]
    · by_cases h2 : r.bodyValid
      · simp [h1, h2, negotiateResponseType, hva r.accept (List.Perm.refl _)]
      · simp [h1, h2]
  · intro a2 hp
    simp [negotiateResponseType, hva a2 hp]

theorem c5_witness :
    ({ media := "application/vnd.api+json", q := 500 } : AcceptEntry) ∈ c5req.accept ∧
    (handleRequest c5req).contentType = some JSONAPIMediaType ∧
    negotiateResponseType
      [{ media := "application/vnd.api+json", q := 500 },
        { media := "application/json", q := 1000 }] = some JSONAPIMediaType := by
  have h := c5_prefer_vendor_type c5req { media := "application/vnd.api+json", q := 500 }
    (by decide) rfl (by decide)
  refine ⟨by decide, h.1, ?_⟩
  exact h.2 _ (by
    have : List.Perm
        [({ media := "application/vnd.api+json", q := 500 } : AcceptEntry),
          { media := "application/json", q := 1000 }]
        [{ media := "application/json", q := 1000 },
          { media := "application/vnd.api+json", q := 500 }] := List.Perm.swap _ _ []
    exact this)

deriving instance DecidableEq for HNode

-- Heap lemmas.
theorem heapWF_nextFresh {h : Heap} (hwf : HeapWF h) : NextFresh h :=
  fun e he => (hwf e he).1

theorem lookupMem_cons (b : Nat) (nd : HNode) (m : List (Nat × HNode)) (nx nx' a : Nat) :
    lookupMem ⟨(b, nd) :: m, nx⟩ a =
      if b = a then some nd else lookupMem ⟨m, nx'⟩ a := by
  unfold lookupMem
  by_cases h : b = a <;> simp [List.find?_cons, h]

theorem lookupMem_some_mem {h : Heap} {a : Nat} {nd : HNode}
    (hl : lookupMem h a = some nd) : (a, nd) ∈ h.mem := by
  unfold lookupMem at hl
  cases hf : h.mem.find? (fun e => e.1 = a) with
  | none => rw [hf] at hl; simp at hl
  | some e =>
      rw [hf] at hl
      simp only [Option.map_some', Option.some.injEq] at hl
      have hmem := List.mem_of_find?_eq_some hf
      have hpred := List.find?_some hf
      have ha : e.1 = a := by simpa using hpred
      have : e = (a, nd) := by
        obtain ⟨e1, e2⟩ := e
        simp only at ha hl
        rw [ha, hl]
      rwa [this] at hmem

theorem nextFresh_bound {h : Heap} (hnf : NextFresh h) {a : Nat} {nd : HNode}
    (hl : lookupMem h a = some nd) : a < h.next :=
  hnf (a, nd) (lookupMem_some_mem hl)

theorem heapWF_refs {h : Heap} (hwf : HeapWF h) {a : Nat} {nd : HNode}
    (hl : lookupMem h a = some nd) : ∀ r ∈ nodeRefs nd, r < a :=
  (hwf (a, nd) (lookupMem_some_mem hl)).2

theorem alloc_fst (nd : HNode) (h : Heap) : (alloc nd h).1 = h.next := rfl

theorem alloc_next (nd : HNode) (h : Heap) : (alloc nd h).2.next = h.next + 1 := rfl

theorem lookupMem_alloc_self (nd : HNode) (h : Heap) :
    lookupMem (alloc nd h).2 h.next = some nd := by
  show lookupMem ⟨(h.next, nd) :: h.mem, h.next + 1⟩ h.next = some nd
  rw [lookupMem_cons _ _ _ _ h.next]
  simp

theorem lookupMem_alloc_low (nd : HNode) (h : Heap) (a : Nat) (ha : a ≠ h.next) :
    lookupMem (alloc nd h).2 a = lookupMem h a := by
  show lookupMem ⟨(h.next, nd) :: h.mem, h.next + 1⟩ a = lookupMem h a
  rw [lookupMem_cons _ _ _ _ h.next]
  have hrfl : lookupMem ⟨h.mem, h.next⟩ a = lookupMem h a := rfl
  have ha' : ¬(h.next = a) := fun hc => ha hc.symm
  rw [if_neg ha', hrfl]

theorem alloc_nextFresh {h : Heap} (hnf : NextFresh h) (nd : HNode) :
    NextFresh (alloc nd h).2 := by
  intro e he
  rcases List.mem_cons.mp he with rfl | he'
  · simp [alloc_next]
  · have := hnf e he'
    show e.1 < h.next + 1
    omega

theorem readRefsWith_mono {f g : Nat → Option JVal}
    (hfg : ∀ r v, f r = some v → g r = some v) :
    ∀ (rs : List Nat) (vs : List JVal),
      readRefsWith f rs = some vs → readRefsWith g rs = some vs := by
  intro rs
  induction rs with
  | nil => intro vs h; exact h
  | cons r rest ih =>
      intro vs h
      unfold readRefsWith at h ⊢
      cases hf : f r with
      | none => rw [hf] at h; simp at h
      | some v =>
          rw [hf] at h
          cases hrec : readRefsWith f rest with
          | none => rw [hrec] at h; simp at h
          | some vs' =>
              rw [hrec] at h
              rw [hfg r v hf, ih vs' hrec]
              exact h

theorem readFieldsWith_mono {f g : Nat → Option JVal}
    (hfg : ∀ r v, f r = some v → g r = some v) :
    ∀ (rs : List (String × Nat)) (vs : List (String × JVal)),
      readFieldsWith f rs = some vs → readFieldsWith g rs = some vs := by
  intro rs
  induction rs with
  | nil => intro vs h; exact h
  | cons e rest ih =>
      intro vs h
      obtain ⟨k, r⟩ := e
      unfold readFieldsWith at h ⊢
      cases hf : f r with
      | none => rw [hf] at h; simp at h
      | some v =>
          rw [hf] at h
          cases hrec : readFieldsWith f rest with
          | none => rw [hrec] at h; simp at h
          | some vs' =>
              rw [hrec] at h
              rw [hfg r v hf, ih vs' hrec]
              exact h

theorem readRefsWith_congr {f g : Nat → Option JVal} :
    ∀ (rs : List Nat), (∀ r ∈ rs, f r = g r) →
      readRefsWith f rs = readRefsWith g rs := by
  intro rs
  induction rs with
  | nil => intro _; rfl
  | cons r rest ih =>
      intro hr
      unfold readRefsWith
      rw [hr r (by simp), ih (fun r' hr' => hr r' (by simp [hr']))]

theorem readFieldsWith_congr {f g : Nat → Option JVal} :
    ∀ (rs : List (String × Nat)), (∀ e ∈ rs, f e.2 = g e.2) →
      readFieldsWith f rs = readFieldsWith g rs := by
  intro rs
  induction rs with
  | nil => intro _; rfl
  | cons e rest ih =>
      intro hr
      obtain ⟨k, r⟩ := e
      unfold readFieldsWith
      rw [hr (k, r) (by simp), ih (fun e' he' => hr e' (by simp [he']))]

theorem readBack_persist {h1 h2 : Heap}
    (hsub : ∀ a nd, lookupMem h1 a = some nd → lookupMem h2 a = some nd) :
    ∀ (fuel a : Nat) (x : JVal),
      readBack fuel h1 a = some x → readBack fuel h2 a = some x := by
  intro fuel
  induction fuel with
  | zero => intro a x h; simp [readBack] at h
  | succ fuel ih =>
      intro a x h
      unfold readBack at h ⊢
      cases hl : lookupMem h1 a with
      | none => rw [hl] at h; simp at h
      | some nd =>
          rw [hl] at h
          rw [hsub a nd hl]
          cases nd with
          | leaf v => exact h
          | harr rs =>
              simp only [Option.map_eq_some'] at h ⊢
              obtain ⟨vs, hvs, rfl⟩ := h
              exact ⟨vs, readRefsWith_mono (fun r v => ih r v) rs vs hvs, rfl⟩
          | hobj rs =>
              simp only [Option.map_eq_some'] at h ⊢
              obtain ⟨vs, hvs, rfl⟩ := h
              exact ⟨vs, readFieldsWith_mono (fun r v => ih r v) rs vs hvs, rfl⟩

theorem readBack_fuel_mono :
    ∀ (fuel fuel' : Nat), fuel ≤ fuel' →
      ∀ (h : Heap) (a : Nat) (x : JVal),
        readBack fuel h a = some x → readBack fuel' h a = some x := by
  intro fuel
  induction fuel with
  | zero => intro fuel' _ h a x hx; simp [readBack] at hx
  | succ fuel ih =>
      intro fuel' hle h a x hx
      obtain ⟨f2, rfl⟩ : ∃ f2, fuel' = f2 + 1 := ⟨fuel' - 1, by omega⟩
      have hle2 : fuel ≤ f2 := by omega
      unfold readBack at hx ⊢
      cases hl : lookupMem h a with
      | none => rw [hl] at hx; simp at hx
      | some nd =>
          rw [hl] at hx
          cases nd with
          | leaf v => exact hx
          | harr rs =>
              simp only [Option.map_eq_some'] at hx ⊢
              obtain ⟨vs, hvs, rfl⟩ := hx
              exact ⟨vs, readRefsWith_mono (fun r v => ih f2 hle2 h r v) rs vs hvs, rfl⟩
          | hobj rs =>
              simp only [Option.map_eq_some'] at hx ⊢
              obtain ⟨vs, hvs, rfl⟩ := hx
              exact ⟨vs, readFieldsWith_mono (fun r v => ih f2 hle2 h r v) rs vs hvs, rfl⟩

/-- Dereferencing below a cutoff is unaffected by changes at or above
it, provided cells below the cutoff reference only cells below it. -/
theorem readBack_unaffected (n : Nat) (h1 h2 : Heap)
    (hlow : ∀ a, a < n → lookupMem h2 a = lookupMem h1 a)
    (hclosed : ∀ a nd, a < n → lookupMem h1 a = some nd → ∀ r ∈ nodeRefs nd, r < n) :
    ∀ (fuel a : Nat), a < n → readBack fuel h2 a = readBack fuel h1 a := by
  intro fuel
  induction fuel with
  | zero => intro a _; rfl
  | succ fuel ih =>
      intro a ha
      unfold readBack
      rw [hlow a ha]
      cases hl : lookupMem h1 a with
      | none => rfl
      | some nd =>
          cases nd with
          | leaf v => rfl
          | harr rs =>
              have hrs : ∀ r ∈ rs, r < n := hclosed a (HNode.harr rs) ha hl
              show Option.map JVal.arr (readRefsWith (readBack fuel h2) rs) =
                Option.map JVal.arr (readRefsWith (readBack fuel h1) rs)
              rw [readRefsWith_congr rs (fun r hr => ih r (hrs r hr))]
          | hobj rs =>
              have hrs : ∀ r ∈ nodeRefs (HNode.hobj rs), r < n :=
                hclosed a (HNode.hobj rs) ha hl
              show Option.map JVal.obj (readFieldsWith (readBack fuel h2) rs) =
                Option.map JVal.obj (readFieldsWith (readBack fuel h1) rs)
              refine congrArg (Option.map JVal.obj) ?_
              refine readFieldsWith_congr rs (fun e he => ?_)
              exact ih e.2 (hrs e.2 (List.mem_map.mpr ⟨e, he, rfl⟩))

theorem writeAll_next : ∀ (ws : List (Nat × HNode)) (h : Heap),
    (writeAll h ws).next = h.next := by
  intro ws
  induction ws with
  | nil => intro h; rfl
  | cons w rest ih =>
      intro h
      show (writeAll (writeMem h w.1 w.2) rest).next = h.next
      rw [ih]
      rfl

theorem lookupMem_writeAll_low : ∀ (ws : List (Nat × HNode)) (h : Heap) (a : Nat),
    (∀ w ∈ ws, w.1 ≠ a) → lookupMem (writeAll h ws) a = lookupMem h a := by
  intro ws
  induction ws with
  | nil => intro h a _; rfl
  | cons w rest ih =>
      intro h a hne
      show lookupMem (writeAll (writeMem h w.1 w.2) rest) a = lookupMem h a
      rw [ih _ _ (fun w' hw' => hne w' (by simp [hw']))]
      show lookupMem ⟨(w.1, w.2) :: h.mem, h.next⟩ a = lookupMem h a
      rw [lookupMem_cons _ _ _ _ h.next]
      have : lookupMem ⟨h.mem, h.next⟩ a = lookupMem h a := rfl
      simp [hne w (by simp), this]

theorem copy_leaf_spec (v : JVal) (h : Heap) (hnf : NextFresh h)
    (heq : toJSCopy v h = alloc (HNode.leaf v) h) (hsize : v.size = 1) :
    NextFresh (toJSCopy v h).2 ∧
    h.next ≤ (toJSCopy v h).1 ∧
    (toJSCopy v h).1 < (toJSCopy v h).2.next ∧
    h.next ≤ (toJSCopy v h).2.next ∧
    (∀ a, a < h.next → lookupMem (toJSCopy v h).2 a = lookupMem h a) ∧
    readBack v.size (toJSCopy v h).2 (toJSCopy v h).1 = some v := by
  rw [heq]
  refine ⟨alloc_nextFresh hnf _, le_refl _, by simp [alloc_fst, alloc_next], ?_, ?_, ?_⟩
  · rw [alloc_next]; omega
  · intro a ha
    exact lookupMem_alloc_low _ h a (by omega)
  · rw [hsize, alloc_fst]
    show readBack (0 + 1) (alloc (HNode.leaf v) h).2 h.next = some v
    unfold readBack
    rw [lookupMem_alloc_self]

mutual

theorem toJSCopy_spec : ∀ (v : JVal) (h : Heap), NextFresh h →
    NextFresh (toJSCopy v h).2 ∧
    h.next ≤ (toJSCopy v h).1 ∧
    (toJSCopy v h).1 < (toJSCopy v h).2.next ∧
    h.next ≤ (toJSCopy v h).2.next ∧
    (∀ a, a < h.next → lookupMem (toJSCopy v h).2 a = lookupMem h a) ∧
    readBack v.size (toJSCopy v h).2 (toJSCopy v h).1 = some v
  | JVal.s x, h, hnf => copy_leaf_spec (JVal.s x) h hnf rfl rfl
  | JVal.num x, h, hnf => copy_leaf_spec (JVal.num x) h hnf rfl rfl
  | JVal.tf x, h, hnf => copy_leaf_spec (JVal.tf x) h hnf rfl rfl
  | JVal.fn x, h, hnf => copy_leaf_spec (JVal.fn x) h hnf rfl rfl
  | JVal.undef, h, hnf => copy_leaf_spec JVal.undef h hnf rfl rfl
  | JVal.arr xs, h, hnf => by
      obtain ⟨hnf1, hmono1, hrefs1, hlow1, hread1⟩ := copyList_spec xs h hnf
      have hsub : ∀ a nd, lookupMem (copyList xs h).2 a = some nd →
          lookupMem (alloc (HNode.harr (copyList xs h).1) (copyList xs h).2).2 a = some nd := by
        intro a nd hl
        have hb := nextFresh_bound hnf1 hl
        rw [lookupMem_alloc_low _ _ a (by omega)]
        exact hl
      have heq : toJSCopy (JVal.arr xs) h =
          alloc (HNode.harr (copyList xs h).1) (copyList xs h).2 := rfl
      rw [heq]
      refine ⟨?_, ?_, ?_, ?_, ?_, ?_⟩
      · exact alloc_nextFresh hnf1 _
      · rw [alloc_fst]; exact hmono1
      · rw [alloc_fst, alloc_next]; omega
      · rw [alloc_next]; omega
      · intro a ha
        rw [lookupMem_alloc_low _ _ a (by omega)]
        exact hlow1 a ha
      · rw [alloc_fst]
        show readBack (sizeList xs + 1)
          (alloc (HNode.harr (copyList xs h).1) (copyList xs h).2).2
          (copyList xs h).2.next = some (JVal.arr xs)
        unfold readBack
        rw [lookupMem_alloc_self]
        have hread2 := readRefsWith_mono
          (fun r v hrv => readBack_persist hsub (sizeList xs) r v hrv)
          (copyList xs h).1 xs hread1
        show Option.map JVal.arr
          (readRefsWith (readBack (sizeList xs)
            (alloc (HNode.harr (copyList xs h).1) (copyList xs h).2).2)
            (copyList xs h).1) = some (JVal.arr xs)
        rw [hread2]
        rfl
  | JVal.obj kvs, h, hnf => by
      obtain ⟨hnf1, hmono1, hrefs1, hlow1, hread1⟩ := copyEntries_spec kvs h hnf
      have hsub : ∀ a nd, lookupMem (copyEntries kvs h).2 a = some nd →
          lookupMem (alloc (HNode.hobj (copyEntries kvs h).1) (copyEntries kvs h).2).2 a
            = some nd := by
        intro a nd hl
        have hb := nextFresh_bound hnf1 hl
        rw [lookupMem_alloc_low _ _ a (by omega)]
        exact hl
      have heq : toJSCopy (JVal.obj kvs) h =
          alloc (HNode.hobj (copyEntries kvs h).1) (copyEntries kvs h).2 := rfl
      rw [heq]
      refine ⟨?_, ?_, ?_, ?_, ?_, ?_⟩
      · exact alloc_nextFresh hnf1 _
      · rw [alloc_fst]; exact hmono1
      · rw [alloc_fst, alloc_next]; omega
      · rw [alloc_next]; omega
      · intro a ha
        rw [lookupMem_alloc_low _ _ a (by omega)]
        exact hlow1 a ha
      · rw [alloc_fst]
        show readBack (sizeEntries kvs + 1)
          (alloc (HNode.hobj (copyEntries kvs h).1) (copyEntries kvs h).2).2
          (copyEntries kvs h).2.next = some (JVal.obj kvs)
        unfold readBack
        rw [lookupMem_alloc_self]
        have hread2 := readFieldsWith_mono
          (fun r v hrv => readBack_persist hsub (sizeEntries kvs) r v hrv)
          (copyEntries kvs h).1 kvs hread1
        show Option.map JVal.obj
          (readFieldsWith (readBack (sizeEntries kvs)
            (alloc (HNode.hobj (copyEntries kvs h).1) (copyEntries kvs h).2).2)
            (copyEntries kvs h).1) = some (JVal.obj kvs)
        rw [hread2]
        rfl
termination_by v _ _ => sizeOf v

theorem copyList_spec : ∀ (xs : List JVal) (h : Heap), NextFresh h →
    NextFresh (copyList xs h).2 ∧
    h.next ≤ (copyList xs h).2.next ∧
    (∀ r ∈ (copyList xs h).1, h.next ≤ r ∧ r < (copyList xs h).2.next) ∧
    (∀ a, a < h.next → lookupMem (copyList xs h).2 a = lookupMem h a) ∧
    readRefsWith (readBack (sizeList xs) (copyList xs h).2) (copyList xs h).1 = some xs
  | [], h, hnf => ⟨hnf, le_refl _, by simp [copyList], fun a _ => rfl, rfl⟩
  | x :: xs, h, hnf => by
      obtain ⟨hnf1, hroot_le, hroot_lt, hmono1, hlow1, hread1⟩ := toJSCopy_spec x h hnf
      obtain ⟨hnf2, hmono2, hrefs2, hlow2, hread2⟩ := copyList_spec xs (toJSCopy x h).2 hnf1
      have heq : copyList (x :: xs) h =
          ((toJSCopy x h).1 :: (copyList xs (toJSCopy x h).2).1,
            (copyList xs (toJSCopy x h).2).2) := rfl
      rw [heq]
      have hsub : ∀ a nd, lookupMem (toJSCopy x h).2 a = some nd →
          lookupMem (copyList xs (toJSCopy x h).2).2 a = some nd := by
        intro a nd hl
        have hb := nextFresh_bound hnf1 hl
        rw [hlow2 a hb]
        exact hl
      refine ⟨hnf2, le_trans hmono1 hmono2, ?_, ?_, ?_⟩
      · intro r hr
        rcases List.mem_cons.mp hr with rfl | hr'
        · exact ⟨hroot_le, lt_of_lt_of_le hroot_lt hmono2⟩
        · have hr2' := hrefs2 r hr'
          exact ⟨le_trans hmono1 hr2'.1, hr2'.2⟩
      · intro a ha
        rw [hlow2 a (lt_of_lt_of_le ha hmono1), hlow1 a ha]
      · show readRefsWith
          (readBack (sizeList (x :: xs)) (copyList xs (toJSCopy x h).2).2)
          ((toJSCopy x h).1 :: (copyList xs (toJSCopy x h).2).1) = some (x :: xs)
        have hfuel : sizeList (x :: xs) = x.size + sizeList xs + 1 := rfl
        have hx : readBack (sizeList (x :: xs)) (copyList xs (toJSCopy x h).2).2
            (toJSCopy x h).1 = some x := by
          refine readBack_fuel_mono x.size _ (by rw [hfuel]; omega) _ _ _ ?_
          exact readBack_persist hsub x.size _ x hread1
        have hxs : readRefsWith
            (readBack (sizeList (x :: xs)) (copyList xs (toJSCopy x h).2).2)
            (copyList xs (toJSCopy x h).2).1 = some xs := by
          refine readRefsWith_mono ?_ _ xs hread2
          intro r v hrv
          exact readBack_fuel_mono (sizeList xs) _ (by rw [hfuel]; omega) _ _ _ hrv
        unfold readRefsWith
        rw [hx, hxs]
termination_by xs _ _ => sizeOf xs

theorem copyEntries_spec : ∀ (kvs : List (String × JVal)) (h : Heap), NextFresh h →
    NextFresh (copyEntries kvs h).2 ∧
    h.next ≤ (copyEntries kvs h).2.next ∧
    (∀ e ∈ (copyEntries kvs h).1, h.next ≤ e.2 ∧ e.2 < (copyEntries kvs h).2.next) ∧
    (∀ a, a < h.next → lookupMem (copyEntries kvs h).2 a = lookupMem h a) ∧
    readFieldsWith (readBack (sizeEntries kvs) (copyEntries kvs h).2)
      (copyEntries kvs h).1 = some kvs
  | [], h, hnf => ⟨hnf, le_refl _, by simp [copyEntries], fun a _ => rfl, rfl⟩
  | (k, x) :: kvs, h, hnf => by
      obtain ⟨hnf1, hroot_le, hroot_lt, hmono1, hlow1, hread1⟩ := toJSCopy_spec x h hnf
      obtain ⟨hnf2, hmono2, hrefs2, hlow2, hread2⟩ :=
        copyEntries_spec kvs (toJSCopy x h).2 hnf1
      have heq : copyEntries ((k, x) :: kvs) h =
          ((k, (toJSCopy x h).1) :: (copyEntries kvs (toJSCopy x h).2).1,
            (copyEntries kvs (toJSCopy x h).2).2) := rfl
      rw [heq]
      have hsub : ∀ a nd, lookupMem (toJSCopy x h).2 a = some nd →
          lookupMem (copyEntries kvs (toJSCopy x h).2).2 a = some nd := by
        intro a nd hl
        have hb := nextFresh_bound hnf1 hl
        rw [hlow2 a hb]
        exact hl
      refine ⟨hnf2, le_trans hmono1 hmono2, ?_, ?_, ?_⟩
      · intro e he
        rcases List.mem_cons.mp he with rfl | he'
        · exact ⟨hroot_le, lt_of_lt_of_le hroot_lt hmono2⟩
        · have hr2' := hrefs2 e he'
          exact ⟨le_trans hmono1 hr2'.1, hr2'.2⟩
      · intro a ha
        rw [hlow2 a (lt_of_lt_of_le ha hmono1), hlow1 a ha]
      · show readFieldsWith
          (readBack (sizeEntries ((k, x) :: kvs)) (copyEntries kvs (toJSCopy x h).2).2)
          ((k, (toJSCopy x h).1) :: (copyEntries kvs (toJSCopy x h).2).1)
          = some ((k, x) :: kvs)
        have hfuel : sizeEntries ((k, x) :: kvs) = x.size + sizeEntries kvs + 1 := rfl
        have hx : readBack (sizeEntries ((k, x) :: kvs))
            (copyEntries kvs (toJSCopy x h).2).2 (toJSCopy x h).1 = some x := by
          refine readBack_fuel_mono x.size _ (by rw [hfuel]; omega) _ _ _ ?_
          exact readBack_persist hsub x.size _ x hread1
        have hxs : readFieldsWith
            (readBack (sizeEntries ((k, x) :: kvs)) (copyEntries kvs (toJSCopy x h).2).2)
            (copyEntries kvs (toJSCopy x h).2).1 = some kvs := by
          refine readFieldsWith_mono ?_ _ kvs hread2
          intro r v hrv
          exact readBack_fuel_mono (sizeEntries kvs) _ (by rw [hfuel]; omega) _ _ _ hrv
        unfold readFieldsWith
        rw [hx, hxs]
termination_by kvs _ _ => sizeOf kvs

end

theorem writeAll_nextFresh {h : Heap} (hnf : NextFresh h) :
    ∀ (ws : List (Nat × HNode)), (∀ w ∈ ws, w.1 < h.next) →
      NextFresh (writeAll h ws) := by
  intro ws
  induction ws generalizing h with
  | nil => intro _; exact hnf
  | cons w rest ih =>
      intro hb
      show NextFresh (writeAll (writeMem h w.1 w.2) rest)
      have hnf' : NextFresh (writeMem h w.1 w.2) := by
        intro e he
        rcases List.mem_cons.mp he with rfl | he'
        · exact hb w (by simp)
        · exact hnf e he'
      exact ih hnf' (fun w' hw' => hb w' (by simp [hw']))

/-- C10: Every registry accessor returns a fresh plain-object
conversion (via toJS) of the internally stored immutable description:
the copy's root is a fresh address; mutating cells at fresh addresses
(in particular, any cells of the returned copy) leaves every
pre-existing heap cell unchanged and leaves the value read from every
pre-existing object unchanged; and a subsequent accessor call — a fresh
toJS copy of the same stored description — still reads back exactly the
stored value, so the registry's stored state is unaffected by the
mutation. -/
theorem c10_accessor_copy_isolation
    (reg : List (String × JVal)) (N : String) (v : JVal) (h : Heap)
    (hwf : HeapWF h)
    (hN : typeAccessor reg N = Except.ok (some v)) :
    h.next ≤ (toJSCopy v h).1 ∧
    (∀ ws : List (Nat × HNode), (∀ w ∈ ws, h.next ≤ w.1) →
      (∀ a, a < h.next →
        lookupMem (writeAll (toJSCopy v h).2 ws) a = lookupMem h a) ∧
      (∀ fuel a, a < h.next →
        readBack fuel (writeAll (toJSCopy v h).2 ws) a = readBack fuel h a)) ∧
    (∀ ws : List (Nat × HNode),
      (∀ w ∈ ws, h.next ≤ w.1 ∧ w.1 < (toJSCopy v h).2.next) →
      readBack v.size (toJSCopy v (writeAll (toJSCopy v h).2 ws)).2
        (toJSCopy v (writeAll (toJSCopy v h).2 ws)).1 = some v) := by
  have hnf : NextFresh h := heapWF_nextFresh hwf
  obtain ⟨hnf1, hroot_le, hroot_lt, hmono1, hlow1, hread1⟩ := toJSCopy_spec v h hnf
  refine ⟨hroot_le, ?_, ?_⟩
  · intro ws hws
    have hlowW : ∀ a, a < h.next →
        lookupMem (writeAll (toJSCopy v h).2 ws) a = lookupMem h a := by
      intro a ha
      rw [lookupMem_writeAll_low ws _ a (fun w hw => by have := hws w hw; omega)]
      exact hlow1 a ha
    refine ⟨hlowW, ?_⟩
    intro fuel a ha
    refine readBack_unaffected h.next h (writeAll (toJSCopy v h).2 ws) hlowW ?_ fuel a ha
    intro a' nd ha' hl r hr
    have := heapWF_refs hwf hl r hr
    omega
  · intro ws hws
    have hnfW : NextFresh (writeAll (toJSCopy v h).2 ws) := by
      refine writeAll_nextFresh hnf1 ws ?_
      intro w hw
      exact (hws w hw).2
    obtain ⟨_, _, _, _, _, hreadW⟩ := toJSCopy_spec v _ hnfW
    exact hreadW

theorem c10_witness :
    HeapWF c10heap ∧
    typeAccessor c10reg "T" = Except.ok (some c10v) ∧
    c10heap.next ≤ (toJSCopy c10v c10heap).1 ∧
    lookupMem (writeAll (toJSCopy c10v c10heap).2 c10ws) 0 = lookupMem c10heap 0 ∧
    readBack 1 (writeAll (toJSCopy c10v c10heap).2 c10ws) 0 = readBack 1 c10heap 0 ∧
    readBack c10v.size (toJSCopy c10v (writeAll (toJSCopy c10v c10heap).2 c10ws)).2
      (toJSCopy c10v (writeAll (toJSCopy c10v c10heap).2 c10ws)).1 = some c10v := by
  have h := c10_accessor_copy_isolation c10reg "T" c10v c10heap (by decide) (by decide)
  refine ⟨by decide, by decide, h.1, ?_, ?_, ?_⟩
  · exact (h.2.1 c10ws (by decide)).1 0 (by decide)
  · exact (h.2.1 c10ws (by decide)).2 1 0 (by decide)
  · exact h.2.2 c10ws (by decide)

end JsonApi
